import Mathlib

/-!
Verification of the CBOR codec `cbor_next` (value model, encoder, decoder,
canonicalizer) against its natural-language specification.

The Rust sources are shallowly embedded as executable Lean definitions:

* `DataItem` mirrors `enum DataItem` (src/data_item.rs).  The content structs
  (`ByteContent`, `TextContent`, `ArrayContent`, `MapContent`) are inlined
  into the constructors as an indefiniteness flag plus the payload, exactly
  the fields they carry.  `TagContent` is not present in the sources
  (only its uses are); it is modelled from the spec: a pair of a `u64` tag
  number and one owned nested value, inlined into the `tag` constructor.
* Machine integers (`u64`, `u8`) become `Nat` with explicit range-side
  conditions; `f64`/`f32`/`f16` values are represented by their IEEE-754 bit
  patterns as `Nat` below `2^64` / `2^32` / `2^16`.
* Byte strings become `List Nat`; Rust `String` text chunks become their
  UTF-8 byte lists (validity is checked by `validUtf8`, mirroring
  `String::from_utf8`).
* The decoder's byte iterator becomes explicit state passing: every decoding
  function takes the remaining input and returns the value together with the
  unconsumed suffix.  Rust's unbounded recursion is made structural with a
  fuel parameter; `fuelOfValue` below computes a sufficient fuel, and
  `DataItem.decode` supplies a linear over-approximation of it, so the fueled
  functions agree with the Rust functions on every input the theorems touch.
-/

set_option maxHeartbeats 1000000

/-- Big-endian byte list (length `k`) of `n % 2^(8k)`, as `to_be_bytes`. -/
def beBytes : Nat → Nat → List Nat
  | 0, _ => []
  | k + 1, n => beBytes k (n / 256) ++ [n % 256]

/-- Combine big-endian bytes into a number, as `u64::from_be_bytes` does for
the zero-padded array built in `extract_optional_number`. -/
def beCombine (bytes : List Nat) : Nat :=
  bytes.foldl (fun acc b => acc * 256 + b) 0

/-- UTF-8 validity of a byte list, mirroring the acceptance of Rust's
`String::from_utf8`: disallows overlong forms, surrogates and code points
above `0x10FFFF`, by the standard first-byte/continuation table. -/
def validUtf8 : List Nat → Bool
  | [] => true
  | b :: t =>
    if b < 0x80 then validUtf8 t
    else if 0xC2 ≤ b ∧ b ≤ 0xDF then
      match t with
      | b1 :: t1 => (0x80 ≤ b1 && b1 ≤ 0xBF) && validUtf8 t1
      | [] => false
    else if b = 0xE0 then
      match t with
      | b1 :: b2 :: t2 =>
        (0xA0 ≤ b1 && b1 ≤ 0xBF) && (0x80 ≤ b2 && b2 ≤ 0xBF) && validUtf8 t2
      | _ => false
    else if (0xE1 ≤ b ∧ b ≤ 0xEC) ∨ b = 0xEE ∨ b = 0xEF then
      match t with
      | b1 :: b2 :: t2 =>
        (0x80 ≤ b1 && b1 ≤ 0xBF) && (0x80 ≤ b2 && b2 ≤ 0xBF) && validUtf8 t2
      | _ => false
    else if b = 0xED then
      match t with
      | b1 :: b2 :: t2 =>
        (0x80 ≤ b1 && b1 ≤ 0x9F) && (0x80 ≤ b2 && b2 ≤ 0xBF) && validUtf8 t2
      | _ => false
    else if b = 0xF0 then
      match t with
      | b1 :: b2 :: b3 :: t3 =>
        (0x90 ≤ b1 && b1 ≤ 0xBF) && (0x80 ≤ b2 && b2 ≤ 0xBF) &&
          (0x80 ≤ b3 && b3 ≤ 0xBF) && validUtf8 t3
      | _ => false
    else if 0xF1 ≤ b ∧ b ≤ 0xF3 then
      match t with
      | b1 :: b2 :: b3 :: t3 =>
        (0x80 ≤ b1 && b1 ≤ 0xBF) && (0x80 ≤ b2 && b2 ≤ 0xBF) &&
          (0x80 ≤ b3 && b3 ≤ 0xBF) && validUtf8 t3
      | _ => false
    else if b = 0xF4 then
      match t with
      | b1 :: b2 :: b3 :: t3 =>
        (0x80 ≤ b1 && b1 ≤ 0x8F) && (0x80 ≤ b2 && b2 ≤ 0xBF) &&
          (0x80 ≤ b3 && b3 ≤ 0xBF) && validUtf8 t3
      | _ => false
    else false

mutual

/-- The CBOR value model, mirroring `enum DataItem` of src/data_item.rs.
`byte`/`text` inline `ByteContent`/`TextContent` (indefiniteness flag plus
the ordered chunk list; a text chunk is the UTF-8 byte list of the Rust
`String`); `array`/`map` inline `ArrayContent`/`MapContent`; `tag` inlines
`TagContent` (modelled from the spec: a `u64` number and one nested item).
`floating` stores the `f64` bit pattern. -/
inductive DataItem where
  | unsigned (n : Nat)
  | signed (n : Nat)
  | byte (indef : Bool) (chunks : List (List Nat))
  | text (indef : Bool) (chunks : List (List Nat))
  | array (indef : Bool) (items : ItemList)
  | map (indef : Bool) (entries : PairList)
  | tag (n : Nat) (content : DataItem)
  | boolean (b : Bool)
  | null
  | undefined
  | floating (bits : Nat)
  | genericSimple (n : Nat)

/-- The payload of `ArrayContent`: a `Vec<DataItem>`. -/
inductive ItemList where
  | nil
  | cons (head : DataItem) (tail : ItemList)

/-- The payload of `MapContent`: the insertion-ordered entry sequence of an
`IndexMap<DataItem, DataItem>`. -/
inductive PairList where
  | nil
  | cons (key : DataItem) (value : DataItem) (tail : PairList)

end

deriving instance DecidableEq for DataItem
deriving instance DecidableEq for ItemList
deriving instance DecidableEq for PairList

namespace ItemList

/-- Convert to a plain list (spec-side convenience). -/
def toList : ItemList → List DataItem
  | .nil => []
  | .cons h t => h :: toList t

/-- Number of elements, as `Vec::len`. -/
def length : ItemList → Nat
  | .nil => 0
  | .cons _ t => length t + 1

end ItemList

namespace PairList

/-- Convert to a plain association list (spec-side convenience). -/
def toList : PairList → List (DataItem × DataItem)
  | .nil => []
  | .cons k v t => (k, v) :: toList t

/-- Number of entries, as `IndexMap::len`. -/
def length : PairList → Nat
  | .nil => 0
  | .cons _ _ t => length t + 1

/-- Append two entry sequences. -/
def append : PairList → PairList → PairList
  | .nil, l => l
  | .cons k v t, l => .cons k v (append t l)

/-- Rebuild an entry sequence from a plain association list. -/
def ofList : List (DataItem × DataItem) → PairList
  | [] => .nil
  | (k, v) :: t => .cons k v (ofList t)

end PairList

mutual

/-- Structural (bit-level) equality of data items: the identity relation on
the embedding, decidable.  This is not Rust's `PartialEq` (modelled later as
`beqItem`); it is used to state which decoded items are byte-identical. -/
def structBeq : DataItem → DataItem → Bool
  | .unsigned a, .unsigned b => a == b
  | .signed a, .signed b => a == b
  | .byte i1 c1, .byte i2 c2 => i1 == i2 && c1 == c2
  | .text i1 c1, .text i2 c2 => i1 == i2 && c1 == c2
  | .array i1 l1, .array i2 l2 => i1 == i2 && structBeqItems l1 l2
  | .map i1 l1, .map i2 l2 => i1 == i2 && structBeqPairs l1 l2
  | .tag n1 c1, .tag n2 c2 => n1 == n2 && structBeq c1 c2
  | .boolean a, .boolean b => a == b
  | .null, .null => true
  | .undefined, .undefined => true
  | .floating a, .floating b => a == b
  | .genericSimple a, .genericSimple b => a == b
  | _, _ => false

/-- Pointwise structural equality of item lists. -/
def structBeqItems : ItemList → ItemList → Bool
  | .nil, .nil => true
  | .cons h1 t1, .cons h2 t2 => structBeq h1 h2 && structBeqItems t1 t2
  | _, _ => false

/-- Pointwise structural equality of entry lists. -/
def structBeqPairs : PairList → PairList → Bool
  | .nil, .nil => true
  | .cons k1 v1 t1, .cons k2 v2 t2 =>
    structBeq k1 k2 && structBeq v1 v2 && structBeqPairs t1 t2
  | _, _ => false

end

mutual

/-- Is some `floating` with a NaN bit pattern contained anywhere in the item? -/
def containsNan : DataItem → Bool
  | .floating bits => (bits / 2 ^ 52) % 2 ^ 11 == 2047 && bits % 2 ^ 52 != 0
  | .array _ l => containsNanItems l
  | .map _ l => containsNanPairs l
  | .tag _ c => containsNan c
  | _ => false

/-- NaN containment over an item list. -/
def containsNanItems : ItemList → Bool
  | .nil => false
  | .cons h t => containsNan h || containsNanItems t

/-- NaN containment over an entry list. -/
def containsNanPairs : PairList → Bool
  | .nil => false
  | .cons k v t => containsNan k || containsNan v || containsNanPairs t

end

/-- Position of the most significant bit (`⌊log₂ n⌋`), with explicit fuel so
that it reduces by kernel computation; `log2f 64 n` is exact for `n < 2^64`. -/
def log2f : Nat → Nat → Nat
  | 0, _ => 0
  | f + 1, n => if n < 2 then 0 else log2f f (n / 2) + 1

/-- Round `num / den` to the nearest integer, ties to even (IEEE-754
round-to-nearest-even, the rounding used by `half::f16::from_f64` and by
Rust `as` float narrowing casts). -/
def roundRNE (num den : Nat) : Nat :=
  let q := num / den
  let r := num % den
  if 2 * r < den then q
  else if den < 2 * r then q + 1
  else if q % 2 = 0 then q else q + 1

/-- Is the `f64` bit pattern a NaN (maximal exponent, non-zero mantissa)? -/
def isNan64 (x : Nat) : Bool :=
  (x / 2 ^ 52) % 2 ^ 11 == 2047 && x % 2 ^ 52 != 0

/-- Is the `f64` bit pattern a (positive or negative) zero? -/
def isZero64 (x : Nat) : Bool :=
  x == 0 || x == 2 ^ 63

/-- IEEE-754 equality of two `f64` bit patterns, the semantics of Rust `==`
on `f64`: false if either side is NaN; `+0.0 == -0.0`; otherwise non-NaN
values are equal exactly when their bit patterns are. -/
def ieeeEq64 (a b : Nat) : Bool :=
  !isNan64 a && !isNan64 b && (a == b || (isZero64 a && isZero64 b))

/-- Widen an `f16` bit pattern to the `f64` bit pattern of the same value
(exact), the semantics of `f64::from(half::f16::from_bits(h))` used by the
decoder for additional information 25. -/
def f16_to_f64 (h : Nat) : Nat :=
  let s := (h / 2 ^ 15) % 2
  let e := (h / 2 ^ 10) % 2 ^ 5
  let m := h % 2 ^ 10
  if e = 31 then
    -- infinity / NaN: maximal exponent, mantissa left-aligned
    s * 2 ^ 63 + 2047 * 2 ^ 52 + m * 2 ^ 42
  else if e = 0 then
    if m = 0 then s * 2 ^ 63
    else
      -- subnormal: value m·2⁻²⁴, normalised in the much wider f64 range
      let k := log2f 64 m
      s * 2 ^ 63 + (999 + k) * 2 ^ 52 + (m - 2 ^ k) * 2 ^ (52 - k)
  else s * 2 ^ 63 + (e + 1008) * 2 ^ 52 + m * 2 ^ 42

/-- Widen an `f32` bit pattern to the `f64` bit pattern of the same value
(exact), the semantics of `f64::from(f32::from_bits(w))` used by the decoder
for additional information 26. -/
def f32_to_f64 (w : Nat) : Nat :=
  let s := (w / 2 ^ 31) % 2
  let e := (w / 2 ^ 23) % 2 ^ 8
  let m := w % 2 ^ 23
  if e = 255 then s * 2 ^ 63 + 2047 * 2 ^ 52 + m * 2 ^ 29
  else if e = 0 then
    if m = 0 then s * 2 ^ 63
    else
      -- subnormal: value m·2⁻¹⁴⁹
      let k := log2f 64 m
      s * 2 ^ 63 + (874 + k) * 2 ^ 52 + (m - 2 ^ k) * 2 ^ (52 - k)
  else s * 2 ^ 63 + (e + 896) * 2 ^ 52 + m * 2 ^ 29

/-- Narrow an `f64` bit pattern to `f16`, the semantics of
`half::f16::from_f64`: IEEE round-to-nearest-even with overflow to infinity,
gradual underflow to subnormals and signed zero, and NaN mapped to a quiet
NaN carrying the top payload bits.  Only exactness of the conversion (not
the rounding direction of inexact values) is relied on by the theorems. -/
def f64_to_f16 (x : Nat) : Nat :=
  let s := (x / 2 ^ 63) % 2
  let e := (x / 2 ^ 52) % 2 ^ 11
  let m := x % 2 ^ 52
  if e = 2047 then
    if m = 0 then s * 2 ^ 15 + 31 * 2 ^ 10
    else s * 2 ^ 15 + 31 * 2 ^ 10 + ((2 ^ 9) ||| (m / 2 ^ 42))
  else if e = 0 then
    -- f64 subnormals are far below the f16 range: signed zero
    s * 2 ^ 15
  else
    let man := m + 2 ^ 52
    if 1039 ≤ e then s * 2 ^ 15 + 31 * 2 ^ 10
    else if 1009 ≤ e then
      -- normal target range, mantissa rounded from 52 to 10 bits
      let hm := roundRNE man (2 ^ 42)
      if hm = 2 ^ 11 then
        if e = 1038 then s * 2 ^ 15 + 31 * 2 ^ 10
        else s * 2 ^ 15 + (e - 1007) * 2 ^ 10
      else s * 2 ^ 15 + (e - 1008) * 2 ^ 10 + (hm - 2 ^ 10)
    else
      -- subnormal target range (or total underflow to signed zero)
      s * 2 ^ 15 + roundRNE man (2 ^ (1051 - e))

/-- Narrow an `f64` bit pattern to `f32`, the semantics of the Rust
`as f32` cast: IEEE round-to-nearest-even with overflow to infinity and NaN
mapped to a quiet NaN.  As with `f64_to_f16`, theorems rely only on
exactness. -/
def f64_to_f32 (x : Nat) : Nat :=
  let s := (x / 2 ^ 63) % 2
  let e := (x / 2 ^ 52) % 2 ^ 11
  let m := x % 2 ^ 52
  if e = 2047 then
    if m = 0 then s * 2 ^ 31 + 255 * 2 ^ 23
    else s * 2 ^ 31 + 255 * 2 ^ 23 + ((2 ^ 22) ||| (m / 2 ^ 29))
  else if e = 0 then s * 2 ^ 31
  else
    let man := m + 2 ^ 52
    if 1151 ≤ e then s * 2 ^ 31 + 255 * 2 ^ 23
    else if 897 ≤ e then
      let wm := roundRNE man (2 ^ 29)
      if wm = 2 ^ 24 then
        if e = 1150 then s * 2 ^ 31 + 255 * 2 ^ 23
        else s * 2 ^ 31 + (e - 895) * 2 ^ 23
      else s * 2 ^ 31 + (e - 896) * 2 ^ 23 + (wm - 2 ^ 23)
    else s * 2 ^ 31 + roundRNE man (2 ^ (926 - e))

example : f16_to_f64 0x3c00 = 0x3FF0000000000000 := by decide
example : f64_to_f16 0x3FF0000000000000 = 0x3c00 := by decide
example : f64_to_f16 0x7ff8000000000000 = 0x7e00 := by decide
example : f16_to_f64 0x7e00 = 0x7ff8000000000000 := by decide
example : f64_to_f16 (2 ^ 63) = 0x8000 := by decide
example : f16_to_f64 0x0001 = 999 * 2 ^ 52 := by decide
example : f64_to_f16 (999 * 2 ^ 52) = 0x0001 := by decide
example : f64_to_f16 0x7C00000000000000 = 0x7C00 := by decide
example : f64_to_f32 0x40F86A0000000000 = 0x47C35000 := by decide
example : f32_to_f64 0x47C35000 = 0x40F86A0000000000 := by decide

/-- `encode_u64_number` (src/data_item.rs): header byte
`(major_type << 5) | additional` followed by the minimal-width big-endian
argument.  `major_type << 5 | a` is written `major_type * 32 + a` (equal for
`a < 32`). -/
def encode_u64_number (majorType : Nat) (number : Nat) : List Nat :=
  if number ≤ 23 then [majorType * 32 + number]
  else if number < 2 ^ 8 then [majorType * 32 + 24, number]
  else if number < 2 ^ 16 then (majorType * 32 + 25) :: beBytes 2 number
  else if number < 2 ^ 32 then (majorType * 32 + 26) :: beBytes 4 number
  else (majorType * 32 + 27) :: beBytes 8 number

/-- `encode_vec_u8` (src/data_item.rs) on the chunk list of a
`ByteContent`: definite content emits one length-prefixed string holding the
concatenation of all chunks; indefinite content emits `major|31`, each chunk
as its own definite string, and the break byte 255.  The fallback for
lengths above `u64::MAX` is unreachable for in-memory vectors (`usize` fits
in `u64`) and is not modelled. -/
def encode_vec_u8 (majorType : Nat) (indef : Bool) (chunks : List (List Nat)) : List Nat :=
  if indef then
    (majorType * 32 + 31) ::
      (chunks.flatMap fun c => encode_u64_number majorType c.length ++ c) ++ [255]
  else
    encode_u64_number majorType chunks.flatten.length ++ chunks.flatten

/-- `encode_f64_number` (src/data_item.rs): try half precision, then single
precision, then fall back to double precision, comparing with Rust `==`
(IEEE equality) after the narrow-then-widen round trip. -/
def encode_f64_number (majorType : Nat) (bits : Nat) : List Nat :=
  let h := f64_to_f16 bits
  if ieeeEq64 (f16_to_f64 h) bits then (majorType * 32 + 25) :: beBytes 2 h
  else
    let w := f64_to_f32 bits
    if ieeeEq64 (f32_to_f64 w) bits then (majorType * 32 + 26) :: beBytes 4 w
    else (majorType * 32 + 27) :: beBytes 8 bits

/-- `DataItem::major_type` (src/data_item.rs). -/
def DataItem.major_type : DataItem → Nat
  | .unsigned _ => 0
  | .signed _ => 1
  | .byte _ _ => 2
  | .text _ _ => 3
  | .array _ _ => 4
  | .map _ _ => 5
  | .tag _ _ => 6
  | .boolean _ => 7
  | .null => 7
  | .undefined => 7
  | .floating _ => 7
  | .genericSimple _ => 7

mutual

/-- `DataItem::encode` (src/data_item.rs).  The unreachable fallbacks for
array/map lengths above `u64::MAX` are not modelled (a `usize` length always
converts).  Text encodes through `ByteContent::from(TextContent)`, i.e. the
same path as byte strings over the UTF-8 chunk bytes. -/
def DataItem.encode : DataItem → List Nat
  | .unsigned n => encode_u64_number 0 n
  | .signed n => encode_u64_number 1 n
  | .byte indef chunks => encode_vec_u8 2 indef chunks
  | .text indef chunks => encode_vec_u8 3 indef chunks
  | .array indef items =>
    if indef then (4 * 32 + 31) :: (encodeItems items ++ [255])
    else encode_u64_number 4 items.length ++ encodeItems items
  | .map indef entries =>
    if indef then (5 * 32 + 31) :: (encodePairs entries ++ [255])
    else encode_u64_number 5 entries.length ++ encodePairs entries
  | .tag n content => encode_u64_number 6 n ++ DataItem.encode content
  | .boolean false => [7 * 32 + 20]
  | .boolean true => [7 * 32 + 21]
  | .null => [7 * 32 + 22]
  | .undefined => [7 * 32 + 23]
  | .floating bits => encode_f64_number 7 bits
  | .genericSimple n => if n ≤ 23 then [7 * 32 + n] else [7 * 32 + 24, n]

/-- Concatenated encodings of the elements of an array. -/
def encodeItems : ItemList → List Nat
  | .nil => []
  | .cons h t => DataItem.encode h ++ encodeItems t

/-- Concatenated key-then-value encodings of the entries of a map. -/
def encodePairs : PairList → List Nat
  | .nil => []
  | .cons k v t => DataItem.encode k ++ DataItem.encode v ++ encodePairs t

end

example : DataItem.encode (.unsigned 10000000) = [0x1a, 0x00, 0x98, 0x96, 0x80] := by decide
example : DataItem.encode (.unsigned 0) = [0x00] := by decide
example : DataItem.encode (.unsigned 24) = [0x18, 0x18] := by decide
example : DataItem.encode (.unsigned 1000) = [0x19, 0x03, 0xe8] := by decide
example : DataItem.encode (.signed (2 ^ 64 - 1)) = [0x3b, 255, 255, 255, 255, 255, 255, 255, 255] := by decide
example : DataItem.encode (.floating 0x3FF0000000000000) = [0xf9, 0x3c, 0x00] := by decide
example : DataItem.encode (.floating 0x3FF199999999999A) = [0xfb, 0x3f, 0xf1, 0x99, 0x99, 0x99, 0x99, 0x99, 0x9a] := by decide
example : DataItem.encode (.floating 0x40F86A0000000000) = [0xfa, 0x47, 0xc3, 0x50, 0x00] := by decide
example : DataItem.encode (.floating 0x7FF8000000000000) = [0xfb, 0x7f, 0xf8, 0, 0, 0, 0, 0, 0] := by decide
example : DataItem.encode (.floating 0x7FF0000000000000) = [0xf9, 0x7c, 0x00] := by decide
example : DataItem.encode (.byte true [[1, 2], [3, 4, 5]]) = [0x5f, 0x42, 1, 2, 0x43, 3, 4, 5, 0xff] := by decide
example : DataItem.encode (.array false (.cons (.unsigned 1) (.cons (.unsigned 2) (.cons (.unsigned 3) .nil)))) = [0x83, 1, 2, 3] := by decide
example : DataItem.encode (.boolean true) = [0xf5] := by decide
example : DataItem.encode (.genericSimple 255) = [0xf8, 0xff] := by decide

/-- `DeterministicMode` (src/deterministic.rs). -/
inductive DeterministicMode where
  | core
  | lengthFirst

/-- Lexicographic comparison of byte lists, the `Ord` of Rust `Vec<u8>`
(element-wise, a strict prefix is smaller). -/
def lexCmp : List Nat → List Nat → Ordering
  | [], [] => .eq
  | [], _ :: _ => .lt
  | _ :: _, [] => .gt
  | a :: as1, b :: bs =>
    if a < b then .lt else if b < a then .gt else lexCmp as1 bs

/-- The `sort_by` comparator of `DataItem::deterministic`: byte-lexicographic
on the key encodings for Core; encoded length first, ties broken
lexicographically, for LengthFirst. -/
def keyCmp (mode : DeterministicMode) (k1 k2 : List Nat) : Ordering :=
  match mode with
  | .core => lexCmp k1 k2
  | .lengthFirst =>
    match compare k1.length k2.length with
    | .eq => lexCmp k1 k2
    | o => o

/-- The adjacent-key check of `DataItem::is_deterministic`:
`key1_encode <= key2_encode` under Core (Rust `Vec` `PartialOrd`), and the
length-first comparison under LengthFirst. -/
def keyLe (mode : DeterministicMode) (k1 k2 : List Nat) : Bool :=
  match mode with
  | .core => lexCmp k1 k2 != .gt
  | .lengthFirst =>
    match compare k1.length k2.length with
    | .eq => lexCmp k1 k2 != .gt
    | .gt => false
    | .lt => true

/-- Adjacent-pairs check over the encoded keys of a map, mirroring
`map.iter().zip(map.iter().skip(1)).all(..)`. -/
def adjacentKeysOk (mode : DeterministicMode) : List (DataItem × DataItem) → Bool
  | [] => true
  | [_] => true
  | (k1, _) :: (k2, v2) :: t =>
    keyLe mode (DataItem.encode k1) (DataItem.encode k2) &&
      adjacentKeysOk mode ((k2, v2) :: t)

mutual

/-- `DataItem::is_deterministic` (src/data_item.rs).  Note the `Map` arm
checks only the map's own indefiniteness and the adjacent-key ordering: it
does not recurse into keys or values (see C6). -/
def DataItem.is_deterministic : DataItem → DeterministicMode → Bool
  | .map indef entries, mode =>
    if indef then false else adjacentKeysOk mode entries.toList
  | .array indef items, mode =>
    if indef then false else isDeterministicItems items mode
  | .tag _ content, mode => DataItem.is_deterministic content mode
  | .byte indef _, _ => !indef
  | .text indef _, _ => !indef
  | _, _ => true

/-- `val.array().iter().all(|v| v.is_deterministic(mode))`. -/
def isDeterministicItems : ItemList → DeterministicMode → Bool
  | .nil, _ => true
  | .cons h t, mode => DataItem.is_deterministic h mode && isDeterministicItems t mode

end

/-- Stable insertion used to model Rust's stable `sort_by`: `x` goes before
the first element not strictly smaller than it. -/
def insertLe {α : Type} (le : α → α → Bool) (x : α) : List α → List α
  | [] => [x]
  | y :: t => if le x y then x :: y :: t else y :: insertLe le x t

/-- Stable sort (insertion sort).  For a total preorder comparator this has
the same output as Rust's stable `slice::sort_by`, since stable sorting is
uniquely determined by the comparator. -/
def sortLe {α : Type} (le : α → α → Bool) : List α → List α
  | [] => []
  | x :: t => insertLe le x (sortLe le t)

/-- One `IndexMap::insert` step of `extend`: if an equivalent key is present
the old key keeps its place and its value is updated, otherwise the entry is
appended.  Two keys are found equivalent when they hash alike and compare
equal under `PartialEq`; for structurally identical keys this holds exactly
when the key contains no NaN (NaN compares unequal to itself), while
`==`-equal but bit-different keys (`0.0` vs `-0.0`, maps re-ordered) hash
differently and are not found. -/
def extendStep (acc : List (DataItem × DataItem)) (k v : DataItem) :
    List (DataItem × DataItem) :=
  if acc.any fun (k2, _) => structBeq k k2 && !containsNan k then
    acc.map fun (k2, v2) =>
      if structBeq k k2 && !containsNan k then (k2, v) else (k2, v2)
  else acc ++ [(k, v)]

/-- `IndexMap::extend` over an entry sequence. -/
def extendEntries (acc news : List (DataItem × DataItem)) :
    List (DataItem × DataItem) :=
  news.foldl (fun a (kv : DataItem × DataItem) => extendStep a kv.1 kv.2) acc

mutual

/-- `DataItem::deterministic` (src/data_item.rs): recursively canonicalize
children, collapse indefinite byte/text content to one definite chunk via
`full()`, make arrays/maps definite, and re-sort map entries by the mode's
key ordering; the sorted entries are collected back into an `IndexMap`
(`index_map.extend(data)`, which merges entries whose keys compare equal and
hash alike). -/
def DataItem.deterministic : DataItem → DeterministicMode → DataItem
  | .map _ entries, mode =>
    let data := sortLe
      (fun (k1, _) (k2, _) =>
        keyCmp mode (DataItem.encode k1) (DataItem.encode k2) != .gt)
      (deterministicPairs entries mode).toList
    .map false (PairList.ofList (extendEntries [] data))
  | .array _ items, mode => .array false (deterministicItems items mode)
  | .tag n content, mode => .tag n (DataItem.deterministic content mode)
  | .byte indef chunks, _ =>
    if indef then .byte false [chunks.flatten] else .byte indef chunks
  | .text indef chunks, _ =>
    if indef then .text false [chunks.flatten] else .text indef chunks
  | v, _ => v

/-- Element-wise canonicalization of an array's items. -/
def deterministicItems : ItemList → DeterministicMode → ItemList
  | .nil, _ => .nil
  | .cons h t, mode =>
    .cons (DataItem.deterministic h mode) (deterministicItems t mode)

/-- Key- and value-wise canonicalization of a map's entries (before
sorting). -/
def deterministicPairs : PairList → DeterministicMode → PairList
  | .nil, _ => .nil
  | .cons k v t, mode =>
    .cons (DataItem.deterministic k mode) (DataItem.deterministic v mode)
      (deterministicPairs t mode)

end

/-- Structured payloads of `Error::NotWellFormed(String)` (src/error.rs):
one constructor per `format!` message produced by the decoder, carrying the
data interpolated into the message. -/
inductive NotWellFormedDetail where
  /-- "incomplete array of byte missing {n} byte" (collect_vec_u8). -/
  | missingBytes (n : Nat)
  /-- "invalid additional number {n}" (extract_optional_number, 28-30). -/
  | invalidAdditional (n : Nat)
  /-- "failed to extract number" (extract_number on additional 31). -/
  | numberExtract
  /-- "contains invalid major type {got} for indefinite major type
  {expected}" (decode_indefinite_byte_or_text). -/
  | chunkMajor (got expected : Nat)
  /-- "invalid value {n} for major type 7" (decode_simple_or_floating). -/
  | invalidMajor7 (n : Nat)
  /-- "same map key {key} is repeated multiple times" (decode_map),
  carrying the offending key that the message renders. -/
  | dupKey (key : DataItem)
deriving DecidableEq

/-- `enum Error` (src/error.rs) for the decoding paths.  `FromUtf8` carries
no payload here; `FromInt` is omitted because the two `try_from` conversions
in decoding (`u16`/`u32` from freshly read 2/4 bytes) can never fail. -/
inductive Error where
  | incomplete
  | fromUtf8
  | incompleteIndefinite
  | invalidSimple
  | notWellFormed (detail : NotWellFormedDetail)
  | invalidBreakStop
deriving DecidableEq

/-- `collect_vec_u8` (src/data_item.rs): take exactly `number` bytes,
reporting how many are missing when the input runs out. -/
def collect_vec_u8 : List Nat → Nat → Except Error (List Nat × List Nat)
  | input, 0 => .ok ([], input)
  | [], n + 1 => .error (.notWellFormed (.missingBytes (n + 1)))
  | b :: t, n + 1 =>
    match collect_vec_u8 t n with
    | .error e => .error e
    | .ok (bytes, rest) => .ok (b :: bytes, rest)

/-- `extract_optional_number` (src/data_item.rs).  `additional` is a five-bit
field (`b % 32`), so the final branch is exactly the indefinite marker 31. -/
def extract_optional_number (additional : Nat) (input : List Nat) :
    Except Error (Option Nat × List Nat) :=
  if additional ≤ 23 then .ok (some additional, input)
  else if additional ≤ 27 then
    match collect_vec_u8 input (2 ^ (additional - 24)) with
    | .error e => .error e
    | .ok (bytes, rest) => .ok (some (beCombine bytes), rest)
  else if additional ≤ 30 then .error (.notWellFormed (.invalidAdditional additional))
  else .ok (none, input)

/-- `extract_number` (src/data_item.rs). -/
def extract_number (additional : Nat) (input : List Nat) :
    Except Error (Nat × List Nat) :=
  match extract_optional_number additional input with
  | .error e => .error e
  | .ok (some n, rest) => .ok (n, rest)
  | .ok (none, _) => .error (.notWellFormed .numberExtract)

/-- `decode_simple_or_floating` (src/data_item.rs).  The `u16`/`u32`
conversions of the Rust code cannot fail (the number was just read from 2 or
4 bytes) and are therefore not error paths here. -/
def decode_simple_or_floating (additional : Nat) (input : List Nat) :
    Except Error (DataItem × List Nat) :=
  if additional ≤ 19 then .ok (.genericSimple additional, input)
  else if additional = 20 then .ok (.boolean false, input)
  else if additional = 21 then .ok (.boolean true, input)
  else if additional = 22 then .ok (.null, input)
  else if additional = 23 then .ok (.undefined, input)
  else if additional = 24 then
    match input with
    | [] => .error .invalidSimple
    | b :: rest =>
      if b < 32 then .error .invalidSimple else .ok (.genericSimple b, rest)
  else if additional = 25 then
    match extract_number additional input with
    | .error e => .error e
    | .ok (n, rest) => .ok (.floating (f16_to_f64 n), rest)
  else if additional = 26 then
    match extract_number additional input with
    | .error e => .error e
    | .ok (n, rest) => .ok (.floating (f32_to_f64 n), rest)
  else if additional = 27 then
    match extract_number additional input with
    | .error e => .error e
    | .ok (n, rest) => .ok (.floating n, rest)
  else if additional ≤ 30 then .error (.notWellFormed (.invalidMajor7 additional))
  else .error .invalidBreakStop

/-- The duplicate-key test of `IndexMap::insert` during map decoding: a new
key is found already present when some stored key hashes identically and
compares equal under `PartialEq`.  For the decoded (structurally identical)
duplicates this holds exactly when the key is NaN-free; bit-different keys
that merely compare `==`-equal (`0.0` vs `-0.0`) hash differently and are
not found. -/
def hasKeyCollision (entries : PairList) (k : DataItem) : Bool :=
  entries.toList.any fun kv => structBeq k kv.1 && !containsNan k

mutual

/-- `decode_value` (src/data_item.rs), with a structural fuel parameter;
fuel 0 (never reached from `DataItem.decode`) reports `Incomplete`.  The
major type of a `u8` header is `b / 32 ≤ 7`, so the final branch is exactly
major type 7. -/
def decode_value : Nat → List Nat → Except Error (DataItem × List Nat)
  | 0, _ => .error .incomplete
  | fuel + 1, input =>
    match input with
    | [] => .error .incomplete
    | b :: rest =>
      let major := b / 32
      let additional := b % 32
      if major = 0 then
        match extract_number additional rest with
        | .error e => .error e
        | .ok (n, r) => .ok (.unsigned n, r)
      else if major = 1 then
        match extract_number additional rest with
        | .error e => .error e
        | .ok (n, r) => .ok (.signed n, r)
      else if major = 2 then
        match decode_byte_or_text fuel 2 additional rest with
        | .error e => .error e
        | .ok (content, r) => .ok (.byte content.1 content.2, r)
      else if major = 3 then
        match decode_byte_or_text fuel 3 additional rest with
        | .error e => .error e
        | .ok (content, r) =>
          -- TryFrom<ByteContent> for TextContent (src/content.rs):
          -- String::from_utf8 on each chunk separately
          if content.2.all validUtf8 then .ok (.text content.1 content.2, r)
          else .error .fromUtf8
      else if major = 4 then decode_array fuel additional rest
      else if major = 5 then decode_map fuel additional rest
      else if major = 6 then
        match extract_number additional rest with
        | .error e => .error e
        | .ok (n, r) =>
          match decode_value fuel r with
          | .error e => .error e
          | .ok (v, r2) => .ok (.tag n v, r2)
      else decode_simple_or_floating additional rest
termination_by structural fuel _ => fuel

/-- `decode_byte_or_text` (src/data_item.rs): returns the indefiniteness
flag and the chunk list of the decoded `ByteContent`.  After the chunk loop
returns (having peeked the break byte) the source advances the iterator once
without inspecting it, hence the `drop 1`. -/
def decode_byte_or_text : Nat → Nat → Nat → List Nat →
    Except Error ((Bool × List (List Nat)) × List Nat)
  | 0, _, _, _ => .error .incomplete
  | fuel + 1, majorType, additional, input =>
    match extract_optional_number additional input with
    | .error e => .error e
    | .ok (some n, r) =>
      match collect_vec_u8 r n with
      | .error e => .error e
      | .ok (bytes, r2) => .ok ((false, [bytes]), r2)
    | .ok (none, r) =>
      match decode_indefinite_byte_or_text fuel majorType r with
      | .error e => .error e
      | .ok (chunks, r2) => .ok ((true, chunks), r2.drop 1)

/-- `decode_array` (src/data_item.rs).  After `extract_array_item` the next
byte can only be a break byte or absent; the final catch-all is dead code. -/
def decode_array : Nat → Nat → List Nat → Except Error (DataItem × List Nat)
  | 0, _, _ => .error .incomplete
  | fuel + 1, additional, input =>
    match extract_optional_number additional input with
    | .error e => .error e
    | .ok (some n, r) =>
      match decode_array_items fuel n r with
      | .error e => .error e
      | .ok (items, r2) => .ok (.array false items, r2)
    | .ok (none, r) =>
      match extract_array_item fuel r with
      | .error e => .error e
      | .ok (items, r2) =>
        match r2 with
        | 255 :: r3 => .ok (.array true items, r3)
        | [] => .error .incompleteIndefinite
        | _ => .error .incomplete
termination_by structural fuel _ _ => fuel

/-- The `for _ in 0..num` loop of `decode_array` for definite arrays. -/
def decode_array_items : Nat → Nat → List Nat → Except Error (ItemList × List Nat)
  | 0, _, _ => .error .incomplete
  | _ + 1, 0, input => .ok (.nil, input)
  | fuel + 1, n + 1, input =>
    match decode_value fuel input with
    | .error e => .error e
    | .ok (v, r) =>
      match decode_array_items fuel n r with
      | .error e => .error e
      | .ok (items, r2) => .ok (.cons v items, r2)
termination_by structural fuel _ _ => fuel

/-- `decode_map` (src/data_item.rs); as for arrays, the catch-all arm after
`extract_map_item` is dead code. -/
def decode_map : Nat → Nat → List Nat → Except Error (DataItem × List Nat)
  | 0, _, _ => .error .incomplete
  | fuel + 1, additional, input =>
    match extract_optional_number additional input with
    | .error e => .error e
    | .ok (some n, r) =>
      match decode_map_pairs fuel n .nil r with
      | .error e => .error e
      | .ok (entries, r2) => .ok (.map false entries, r2)
    | .ok (none, r) =>
      match extract_map_item fuel r with
      | .error e => .error e
      | .ok (entries, r2) =>
        match r2 with
        | 255 :: r3 => .ok (.map true entries, r3)
        | [] => .error .incompleteIndefinite
        | _ => .error .incomplete
termination_by structural fuel _ _ => fuel

/-- The `for _ in 0..num` loop of `decode_map` for definite maps, with the
duplicate-key check of `map_index_map.insert(..).is_some()`. -/
def decode_map_pairs : Nat → Nat → PairList → List Nat →
    Except Error (PairList × List Nat)
  | 0, _, _, _ => .error .incomplete
  | _ + 1, 0, acc, input => .ok (acc, input)
  | fuel + 1, n + 1, acc, input =>
    match decode_value fuel input with
    | .error e => .error e
    | .ok (k, r) =>
      match decode_value fuel r with
      | .error e => .error e
      | .ok (v, r2) =>
        if hasKeyCollision acc k then .error (.notWellFormed (.dupKey k))
        else decode_map_pairs fuel n (acc.append (.cons k v .nil)) r2
termination_by structural fuel _ _ _ => fuel

/-- `extract_array_item` (src/data_item.rs): decode items until the peeked
byte is a break byte (left in place) or the input ends. -/
def extract_array_item : Nat → List Nat → Except Error (ItemList × List Nat)
  | 0, _ => .error .incomplete
  | fuel + 1, input =>
    match input with
    | [] => .ok (.nil, [])
    | b :: r =>
      if b = 255 then .ok (.nil, b :: r)
      else
        match decode_value fuel (b :: r) with
        | .error e => .error e
        | .ok (v, r1) =>
          match extract_array_item fuel r1 with
          | .error e => .error e
          | .ok (items, r2) => .ok (.cons v items, r2)
termination_by structural fuel _ => fuel

/-- `extract_map_item` (src/data_item.rs), the indefinite-map loop.  Note
(C3): the source inserts the pair into a map created empty two lines above,
so its duplicate check can never fire, and the recursive results are merged
with `IndexMap::extend`, which silently updates the value of a repeated
key. -/
def extract_map_item : Nat → List Nat → Except Error (PairList × List Nat)
  | 0, _ => .error .incomplete
  | fuel + 1, input =>
    match input with
    | [] => .ok (.nil, [])
    | b :: r =>
      if b = 255 then .ok (.nil, b :: r)
      else
        match decode_value fuel (b :: r) with
        | .error e => .error e
        | .ok (k, r1) =>
          match decode_value fuel r1 with
          | .error e => .error e
          | .ok (v, r2) =>
            match extract_map_item fuel r2 with
            | .error e => .error e
            | .ok (more, r3) =>
              .ok (PairList.ofList (extendEntries [(k, v)] more.toList), r3)
termination_by structural fuel _ => fuel

/-- `decode_indefinite_byte_or_text` (src/data_item.rs): collect definite
chunks of the expected major type until the break byte is peeked (and left
in place for the caller). -/
def decode_indefinite_byte_or_text : Nat → Nat → List Nat →
    Except Error (List (List Nat) × List Nat)
  | 0, _, _ => .error .incomplete
  | fuel + 1, expectedMajor, input =>
    match input with
    | [] => .error .incompleteIndefinite
    | b :: r =>
      if b = 255 then .ok ([], b :: r)
      else if b / 32 ≠ expectedMajor then
        .error (.notWellFormed (.chunkMajor (b / 32) expectedMajor))
      else
        match extract_number (b % 32) r with
        | .error e => .error e
        | .ok (len, r2) =>
          match collect_vec_u8 r2 len with
          | .error e => .error e
          | .ok (bytes, r3) =>
            match decode_indefinite_byte_or_text fuel expectedMajor r3 with
            | .error e => .error e
            | .ok (more, r4) => .ok (bytes :: more, r4)
termination_by structural fuel _ _ => fuel

end

/-- `DataItem::decode` (src/data_item.rs): run `decode_value` on a fresh
cursor and ignore any unconsumed suffix.  The fuel `5 * |input| + 1`
strictly exceeds the recursion depth the Rust decoder can reach on the
input (each level of the mutual recursion consumes input or is one of at
most three intermediate frames per consumed byte), so the fueled function
agrees with the source. -/
def DataItem.decode (input : List Nat) : Except Error DataItem :=
  match decode_value (5 * input.length + 1) input with
  | .error e => .error e
  | .ok (v, _) => .ok v

deriving instance DecidableEq for Except

example : DataItem.decode [0x1a, 0x00, 0x98, 0x96, 0x80] = .ok (.unsigned 10000000) := by decide
example : DataItem.decode [0x1c] = .error (.notWellFormed (.invalidAdditional 28)) := by decide
example : DataItem.decode [0x7f, 0x14] = .error (.notWellFormed (.chunkMajor 0 3)) := by decide
example : DataItem.decode [0xf8, 0x01] = .error .invalidSimple := by decide
example : DataItem.decode [0xdd] = .error (.notWellFormed (.invalidAdditional 29)) := by decide
example : DataItem.decode [0x3f] = .error (.notWellFormed .numberExtract) := by decide
example : DataItem.decode [0x5f, 0x41, 0x00] = .error .incompleteIndefinite := by decide
example : DataItem.decode [0x9f, 0x81, 0x9f, 0x81, 0x9f, 0x9f, 0xff, 0xff, 0xff] = .error .incompleteIndefinite := by decide
example : DataItem.decode [0x9f, 0x82, 0x9f, 0x81, 0x9f, 0x9f, 0xff, 0xff, 0xff, 0xff] = .error .invalidBreakStop := by decide
example : DataItem.decode [0x1a, 0x01, 0x02] = .error (.notWellFormed (.missingBytes 2)) := by decide
example : DataItem.decode [0xbf, 0x00, 0x00, 0x00, 0xff] = .error .invalidBreakStop := by decide
example : DataItem.decode [0xa2, 0x00, 0x00, 0x00] = .error .incomplete := by decide
example : DataItem.decode [0xbf, 0xfc] = .error (.notWellFormed (.invalidMajor7 28)) := by decide
example : DataItem.decode [0xff] = .error .invalidBreakStop := by decide
example : DataItem.decode [0x5f, 0x42, 1, 2, 0x43, 3, 4, 5, 0xff] = .ok (.byte true [[1, 2], [3, 4, 5]]) := by decide
example : DataItem.decode [0xf9, 0x3c, 0x00] = .ok (.floating 0x3FF0000000000000) := by decide
example : DataItem.decode [0x9f, 0xff] = .ok (.array true .nil) := by decide
example : DataItem.decode [0xa2, 1, 2, 3, 4] =
    .ok (.map false (.cons (.unsigned 1) (.unsigned 2) (.cons (.unsigned 3) (.unsigned 4) .nil))) := by decide
example : DataItem.decode [0xa2, 0, 1, 0, 2] = .error (.notWellFormed (.dupKey (.unsigned 0))) := by decide

mutual

/-- Exact recursion-depth requirement of the fueled decoder on the encoding
of a value: each constructor counts the frames of the mutual decoding
family entered before input-consuming recursion continues. -/
def fuelOfValue : DataItem → Nat
  | .byte indef chunks => 2 + (if indef then chunks.length + 1 else 0)
  | .text indef chunks => 2 + (if indef then chunks.length + 1 else 0)
  | .array _ items => 2 + fuelOfItems items
  | .map _ entries => 2 + fuelOfPairs entries
  | .tag _ c => 1 + fuelOfValue c
  | _ => 1

/-- Fuel requirement of decoding an element sequence. -/
def fuelOfItems : ItemList → Nat
  | .nil => 1
  | .cons h t => 1 + fuelOfValue h + fuelOfItems t

/-- Fuel requirement of decoding an entry sequence. -/
def fuelOfPairs : PairList → Nat
  | .nil => 1
  | .cons k v t => 1 + fuelOfValue k + fuelOfValue v + fuelOfPairs t

end

/-- Well-formedness of a byte/text chunk list: chunk lengths fit `u64`
(guaranteed by `usize` on the wire) and bytes fit `u8`. -/
def chunksWF (chunks : List (List Nat)) : Bool :=
  chunks.all fun c => decide (c.length < 2 ^ 64) && c.all fun b => decide (b < 256)

/-- The duplicate-free-keys invariant of an `IndexMap`: inserting the
entries in order never finds an equivalent key already present (see
`hasKeyCollision`). -/
def pairsAddOK : PairList → PairList → Bool
  | _, .nil => true
  | acc, .cons k v t =>
    !hasKeyCollision acc k && pairsAddOK (acc.append (.cons k v .nil)) t

mutual

/-- A value representable by the Rust data model: numeric fields fit their
machine types, generic simple values lie in the `SimpleValue` range
(`0..=19` or `32..=255`), text chunks are valid UTF-8 (they are Rust
`String`s), map keys satisfy the `IndexMap` uniqueness invariant, and —
the shape stated by the spec's data model — definite byte/text content
consists of exactly one chunk. -/
def WFValue : DataItem → Bool
  | .unsigned n => decide (n < 2 ^ 64)
  | .signed n => decide (n < 2 ^ 64)
  | .byte indef chunks => chunksWF chunks && (indef || chunks.length == 1)
  | .text indef chunks =>
    chunksWF chunks && (indef || chunks.length == 1) && chunks.all validUtf8
  | .array _ items => decide (items.length < 2 ^ 64) && WFItems items
  | .map _ entries =>
    decide (entries.length < 2 ^ 64) && pairsAddOK .nil entries && WFPairs entries
  | .tag n c => decide (n < 2 ^ 64) && WFValue c
  | .boolean _ => true
  | .null => true
  | .undefined => true
  | .floating bits => decide (bits < 2 ^ 64)
  | .genericSimple n => decide (n ≤ 19) || (decide (32 ≤ n) && decide (n ≤ 255))

/-- Well-formedness of every element of an array. -/
def WFItems : ItemList → Bool
  | .nil => true
  | .cons h t => WFValue h && WFItems t

/-- Well-formedness of every key and value of a map. -/
def WFPairs : PairList → Bool
  | .nil => true
  | .cons k v t => WFValue k && WFValue v && WFPairs t

end

mutual

/-- Is every byte/text/array/map inside the item definite
(`is_indefinite` false at every depth)? -/
def allDefinite : DataItem → Bool
  | .byte indef _ => !indef
  | .text indef _ => !indef
  | .array indef items => !indef && allDefiniteItems items
  | .map indef entries => !indef && allDefinitePairs entries
  | .tag _ c => allDefinite c
  | _ => true

/-- Definiteness of every element of an array. -/
def allDefiniteItems : ItemList → Bool
  | .nil => true
  | .cons h t => allDefinite h && allDefiniteItems t

/-- Definiteness of every key and value of a map. -/
def allDefinitePairs : PairList → Bool
  | .nil => true
  | .cons k v t => allDefinite k && allDefinite v && allDefinitePairs t

end

/-- Every inductive value has positive `sizeOf` (termination helper). -/
theorem pairList_sizeOf_pos (l : PairList) : 0 < sizeOf l := by
  cases l <;> simp_arith

mutual

/-- Rust `PartialEq` on `DataItem` (the `#[derive(PartialEq)]` of
src/data_item.rs, together with `impl Eq`): structural comparison except
that `Floating` compares by IEEE `f64` equality (so NaN is unequal to
itself) and `Map` compares its `IndexMap`s order-insensitively (same
length, and every entry of the left map is found in the right one by key
equality). -/
def beqItem : DataItem → DataItem → Bool
  | .unsigned a, .unsigned b => a == b
  | .signed a, .signed b => a == b
  | .byte i1 c1, .byte i2 c2 => i1 == i2 && c1 == c2
  | .text i1 c1, .text i2 c2 => i1 == i2 && c1 == c2
  | .array i1 l1, .array i2 l2 => i1 == i2 && beqItemsList l1 l2
  | .map i1 l1, .map i2 l2 =>
    i1 == i2 && l1.length == l2.length && beqEntriesIn l1 l2
  | .tag n1 c1, .tag n2 c2 => n1 == n2 && beqItem c1 c2
  | .boolean a, .boolean b => a == b
  | .null, .null => true
  | .undefined, .undefined => true
  | .floating a, .floating b => ieeeEq64 a b
  | .genericSimple a, .genericSimple b => a == b
  | _, _ => false
termination_by a _ => (sizeOf a, 0)

/-- Pointwise `PartialEq` of two `Vec<DataItem>`. -/
def beqItemsList : ItemList → ItemList → Bool
  | .nil, .nil => true
  | .cons h1 t1, .cons h2 t2 => beqItem h1 h2 && beqItemsList t1 t2
  | _, _ => false
termination_by l _ => (sizeOf l, 0)

/-- `IndexMap` equality, left side: every entry of the first map must be
found in the second. -/
def beqEntriesIn : PairList → PairList → Bool
  | .nil, _ => true
  | .cons k v t, other => beqEntryLookup k v other && beqEntriesIn t other
termination_by l _ => (sizeOf l, 0)
decreasing_by
  all_goals simp_wf
  · apply Prod.Lex.left
    have h := pairList_sizeOf_pos t
    omega
  · apply Prod.Lex.left
    omega

/-- `IndexMap` equality, lookup of one entry: some entry of `other` has an
equal key and an equal value. -/
def beqEntryLookup : DataItem → DataItem → PairList → Bool
  | _, _, .nil => false
  | k, v, .cons k2 v2 t => (beqItem k k2 && beqItem v v2) || beqEntryLookup k v t
termination_by k v other => (sizeOf k + sizeOf v + 1, sizeOf other)

end

/-- The bytes the `Floating` arm of `impl Hash for DataItem` feeds to the
hasher: `val.to_be_bytes()`, i.e. the big-endian bit pattern (after the
discriminant, common to all `Floating` values). -/
def floatHashBytes (bits : Nat) : List Nat :=
  beBytes 8 bits

/-- Keyed lookup `m.map().get(&idx)` used by `Get<DataItem>`
(src/index.rs): the first entry whose key compares equal to the index under
`PartialEq` (the real `IndexMap` additionally requires the hashes to agree,
which can only make lookup fail more often; the theorem below proves a
failure). -/
def mapGet : PairList → DataItem → Option DataItem
  | .nil, _ => none
  | .cons k v t, idx => if beqItem idx k then some v else mapGet t idx

/-- `DataItem::as_signed` (src/data_item.rs): `Some(-i128::from(num + 1))`.
The addition `num + 1` is performed in `u64`, so at `num = u64::MAX` it
overflows — wrapping to 0 in release builds (modelled here by the
`% 2^64`); debug builds panic at the same input. -/
def DataItem.as_signed : DataItem → Option Int
  | .signed num => some (-(((num + 1) % 2 ^ 64 : Nat) : Int))
  | _ => none

/-- `DataItem::as_number` (src/data_item.rs); its `Signed` arm is the same
expression as `as_signed`, with the same `u64` overflow at the boundary. -/
def DataItem.as_number : DataItem → Option Int
  | .unsigned num => some ((num : Nat) : Int)
  | .signed num => some (-(((num + 1) % 2 ^ 64 : Nat) : Int))
  | _ => none

theorem beBytes_length (k n : Nat) : (beBytes k n).length = k := by
  induction k generalizing n with
  | zero => rfl
  | succ k ih => simp [beBytes, ih]

theorem beCombine_snoc (l : List Nat) (b : Nat) :
    beCombine (l ++ [b]) = beCombine l * 256 + b := by
  simp [beCombine, List.foldl_append]

theorem beCombine_beBytes (k n : Nat) (h : n < 2 ^ (8 * k)) :
    beCombine (beBytes k n) = n := by
  induction k generalizing n with
  | zero => simp [beBytes, beCombine]; omega
  | succ k ih =>
    have hdiv : n / 256 < 2 ^ (8 * k) := by
      have hpow : 2 ^ (8 * (k + 1)) = 2 ^ (8 * k) * 256 := by
        rw [Nat.mul_succ, pow_add]; norm_num
      rw [hpow] at h
      omega
    simp only [beBytes, beCombine_snoc, ih (n / 256) hdiv]
    omega

theorem collect_vec_u8_exact (bytes rest : List Nat) :
    collect_vec_u8 (bytes ++ rest) bytes.length = .ok (bytes, rest) := by
  induction bytes with
  | nil => simp [collect_vec_u8]
  | cons b t ih => simp [collect_vec_u8, ih]

theorem header_div (m a : Nat) (h : a < 32) : (m * 32 + a) / 32 = m := by omega

theorem header_mod (m a : Nat) (h : a < 32) : (m * 32 + a) % 32 = a := by omega

theorem collect_beBytes (k n : Nat) (rest : List Nat) :
    collect_vec_u8 (beBytes k n ++ rest) k = .ok (beBytes k n, rest) := by
  have := collect_vec_u8_exact (beBytes k n) rest
  rwa [beBytes_length] at this

/-- Shape of `encode_u64_number` and its inversion by
`extract_optional_number`/`extract_number`: the emitted header carries an
additional-information value below 28 and the following bytes decode back
to the number. -/
theorem extract_encode_u64 (m n : Nat) (hn : n < 2 ^ 64) (rest : List Nat) :
    ∃ a tail, encode_u64_number m n = (m * 32 + a) :: tail ∧ a < 28 ∧
      extract_optional_number a (tail ++ rest) = .ok (some n, rest) ∧
      extract_number a (tail ++ rest) = .ok (n, rest) := by
  have hn' : n < 18446744073709551616 := by simpa using hn
  unfold encode_u64_number
  by_cases h23 : n ≤ 23
  · refine ⟨n, [], by simp [h23], by omega, ?_, ?_⟩ <;>
      simp [extract_optional_number, extract_number, h23]
  · by_cases h8 : n < 256
    · have henc : (if n ≤ 23 then [m * 32 + n]
          else if n < 2 ^ 8 then [m * 32 + 24, n]
          else if n < 2 ^ 16 then (m * 32 + 25) :: beBytes 2 n
          else if n < 2 ^ 32 then (m * 32 + 26) :: beBytes 4 n
          else (m * 32 + 27) :: beBytes 8 n) = [m * 32 + 24, n] := by
        norm_num [h23, h8]
      have hco : collect_vec_u8 (n :: rest) 1 = .ok ([n], rest) := by
        simpa using collect_vec_u8_exact [n] rest
      refine ⟨24, [n], henc, by omega, ?_, ?_⟩ <;>
        simp [extract_optional_number, extract_number, hco, beCombine]
    · by_cases h16 : n < 65536
      · have henc : (if n ≤ 23 then [m * 32 + n]
            else if n < 2 ^ 8 then [m * 32 + 24, n]
            else if n < 2 ^ 16 then (m * 32 + 25) :: beBytes 2 n
            else if n < 2 ^ 32 then (m * 32 + 26) :: beBytes 4 n
            else (m * 32 + 27) :: beBytes 8 n) = (m * 32 + 25) :: beBytes 2 n := by
          norm_num [h23, h8, h16]
        have hco : collect_vec_u8 (beBytes 2 n ++ rest) 2 = .ok (beBytes 2 n, rest) :=
          collect_beBytes 2 n rest
        have hcb : beCombine (beBytes 2 n) = n := beCombine_beBytes 2 n (by norm_num; omega)
        refine ⟨25, beBytes 2 n, henc, by omega, ?_, ?_⟩ <;>
          simp [extract_optional_number, extract_number, hco, hcb]
      · by_cases h32 : n < 4294967296
        · have henc : (if n ≤ 23 then [m * 32 + n]
              else if n < 2 ^ 8 then [m * 32 + 24, n]
              else if n < 2 ^ 16 then (m * 32 + 25) :: beBytes 2 n
              else if n < 2 ^ 32 then (m * 32 + 26) :: beBytes 4 n
              else (m * 32 + 27) :: beBytes 8 n) = (m * 32 + 26) :: beBytes 4 n := by
            norm_num [h23, h8, h16, h32]
          have hco : collect_vec_u8 (beBytes 4 n ++ rest) 4 = .ok (beBytes 4 n, rest) :=
            collect_beBytes 4 n rest
          have hcb : beCombine (beBytes 4 n) = n := beCombine_beBytes 4 n (by norm_num; omega)
          refine ⟨26, beBytes 4 n, henc, by omega, ?_, ?_⟩ <;>
            simp [extract_optional_number, extract_number, hco, hcb]
        · have henc : (if n ≤ 23 then [m * 32 + n]
              else if n < 2 ^ 8 then [m * 32 + 24, n]
              else if n < 2 ^ 16 then (m * 32 + 25) :: beBytes 2 n
              else if n < 2 ^ 32 then (m * 32 + 26) :: beBytes 4 n
              else (m * 32 + 27) :: beBytes 8 n) = (m * 32 + 27) :: beBytes 8 n := by
            norm_num [h23, h8, h16, h32]
          have hco : collect_vec_u8 (beBytes 8 n ++ rest) 8 = .ok (beBytes 8 n, rest) :=
            collect_beBytes 8 n rest
          have hcb : beCombine (beBytes 8 n) = n := beCombine_beBytes 8 n (by norm_num; omega)
          refine ⟨27, beBytes 8 n, henc, by omega, ?_, ?_⟩ <;>
            simp [extract_optional_number, extract_number, hco, hcb]

theorem roundRNE_le (num den : Nat) : roundRNE num den ≤ num / den + 1 := by
  unfold roundRNE
  dsimp only
  split
  · omega
  · split
    · omega
    · split <;> omega

theorem extract_number_bytes (a k n : Nat) (ha23 : 23 < a) (ha : a ≤ 27)
    (hk : 2 ^ (a - 24) = k) (hn : n < 2 ^ (8 * k)) (rest : List Nat) :
    extract_number a (beBytes k n ++ rest) = .ok (n, rest) := by
  unfold extract_number extract_optional_number
  have h1 : ¬a ≤ 23 := by omega
  simp only [h1, if_false, ha, if_true, hk, collect_beBytes,
    beCombine_beBytes k n hn]

theorem lor_lt_pow10 (y : Nat) (hy : y < 2 ^ 10) : (2 ^ 9) ||| y < 2 ^ 10 :=
  Nat.bitwise_lt (by norm_num) hy

theorem f64_to_f16_lt (x : Nat) : f64_to_f16 x < 2 ^ 16 := by
  unfold f64_to_f16
  dsimp only
  have hs : (x / 2 ^ 63) % 2 < 2 := Nat.mod_lt _ (by norm_num)
  have he : (x / 2 ^ 52) % 2 ^ 11 < 2 ^ 11 := Nat.mod_lt _ (by norm_num)
  have hm : x % 2 ^ 52 < 2 ^ 52 := Nat.mod_lt _ (by norm_num)
  have hlor : (2 ^ 9) ||| (x % 2 ^ 52 / 2 ^ 42) < 2 ^ 10 := lor_lt_pow10 _ (by omega)
  have hr1 : roundRNE (x % 2 ^ 52 + 2 ^ 52) (2 ^ 42) ≤ 2 ^ 11 := by
    have := roundRNE_le (x % 2 ^ 52 + 2 ^ 52) (2 ^ 42)
    omega
  have hr2 : ∀ e, e < 1009 → roundRNE (x % 2 ^ 52 + 2 ^ 52) (2 ^ (1051 - e)) ≤ 2 ^ 10 + 1 := by
    intro e hee
    have hle : (2 : Nat) ^ 43 ≤ 2 ^ (1051 - e) := Nat.pow_le_pow_right (by norm_num) (by omega)
    have h1 := roundRNE_le (x % 2 ^ 52 + 2 ^ 52) (2 ^ (1051 - e))
    have h2 : (x % 2 ^ 52 + 2 ^ 52) / 2 ^ (1051 - e) ≤ (x % 2 ^ 52 + 2 ^ 52) / 2 ^ 43 :=
      Nat.div_le_div_left hle (by norm_num)
    have h3 : (x % 2 ^ 52 + 2 ^ 52) / 2 ^ 43 < 2 ^ 10 := by omega
    omega
  split
  · split <;> omega
  · split
    · omega
    · split
      · omega
      · split
        · split
          · split <;> omega
          · have := hr1
            omega
        · have := hr2 ((x / 2 ^ 52) % 2 ^ 11) (by omega)
          omega

theorem lor_lt_pow23 (y : Nat) (hy : y < 2 ^ 23) : (2 ^ 22) ||| y < 2 ^ 23 :=
  Nat.bitwise_lt (by norm_num) hy

theorem f64_to_f32_lt (x : Nat) : f64_to_f32 x < 2 ^ 32 := by
  unfold f64_to_f32
  dsimp only
  have hs : (x / 2 ^ 63) % 2 < 2 := Nat.mod_lt _ (by norm_num)
  have he : (x / 2 ^ 52) % 2 ^ 11 < 2 ^ 11 := Nat.mod_lt _ (by norm_num)
  have hm : x % 2 ^ 52 < 2 ^ 52 := Nat.mod_lt _ (by norm_num)
  have hlor : (2 ^ 22) ||| (x % 2 ^ 52 / 2 ^ 29) < 2 ^ 23 := lor_lt_pow23 _ (by omega)
  have hr1 : roundRNE (x % 2 ^ 52 + 2 ^ 52) (2 ^ 29) ≤ 2 ^ 24 := by
    have := roundRNE_le (x % 2 ^ 52 + 2 ^ 52) (2 ^ 29)
    omega
  have hr2 : ∀ e, e < 897 → roundRNE (x % 2 ^ 52 + 2 ^ 52) (2 ^ (926 - e)) ≤ 2 ^ 23 + 1 := by
    intro e hee
    have hle : (2 : Nat) ^ 30 ≤ 2 ^ (926 - e) := Nat.pow_le_pow_right (by norm_num) (by omega)
    have h1 := roundRNE_le (x % 2 ^ 52 + 2 ^ 52) (2 ^ (926 - e))
    have h2 : (x % 2 ^ 52 + 2 ^ 52) / 2 ^ (926 - e) ≤ (x % 2 ^ 52 + 2 ^ 52) / 2 ^ 30 :=
      Nat.div_le_div_left hle (by norm_num)
    have h3 : (x % 2 ^ 52 + 2 ^ 52) / 2 ^ 30 < 2 ^ 23 := by omega
    omega
  split
  · split <;> omega
  · split
    · omega
    · split
      · omega
      · split
        · split
          · split <;> omega
          · have := hr1
            omega
        · have := hr2 ((x / 2 ^ 52) % 2 ^ 11) (by omega)
          omega

/-- If narrowing to half precision and widening back is IEEE-equal to the
original, it is bit-identical: IEEE equality of non-NaN values separates
bit patterns except for the two zeros, whose round trips are computed. -/
theorem rt16_exact (x : Nat)
    (h : ieeeEq64 (f16_to_f64 (f64_to_f16 x)) x = true) :
    f16_to_f64 (f64_to_f16 x) = x := by
  unfold ieeeEq64 at h
  simp only [Bool.and_eq_true, Bool.or_eq_true, beq_iff_eq, Bool.not_eq_true'] at h
  obtain ⟨⟨h1, h2⟩, h3 | ⟨hz1, hz2⟩⟩ := h
  · exact h3
  · unfold isZero64 at hz2
    simp only [Bool.or_eq_true, beq_iff_eq] at hz2
    rcases hz2 with rfl | rfl <;> decide

/-- Single-precision analogue of `rt16_exact`. -/
theorem rt32_exact (x : Nat)
    (h : ieeeEq64 (f32_to_f64 (f64_to_f32 x)) x = true) :
    f32_to_f64 (f64_to_f32 x) = x := by
  unfold ieeeEq64 at h
  simp only [Bool.and_eq_true, Bool.or_eq_true, beq_iff_eq, Bool.not_eq_true'] at h
  obtain ⟨⟨h1, h2⟩, h3 | ⟨hz1, hz2⟩⟩ := h
  · exact h3
  · unfold isZero64 at hz2
    simp only [Bool.or_eq_true, beq_iff_eq] at hz2
    rcases hz2 with rfl | rfl <;> decide

/-- For a non-NaN bit pattern the IEEE check of the encode cascade is
equivalent to a bit-exact half-precision round trip. -/
theorem ieee_rt16_iff (x : Nat) (hx : isNan64 x = false) :
    (ieeeEq64 (f16_to_f64 (f64_to_f16 x)) x = true) ↔
      f16_to_f64 (f64_to_f16 x) = x := by
  constructor
  · exact rt16_exact x
  · intro h
    rw [h]
    unfold ieeeEq64
    simp [hx]

/-- Single-precision analogue of `ieee_rt16_iff`. -/
theorem ieee_rt32_iff (x : Nat) (hx : isNan64 x = false) :
    (ieeeEq64 (f32_to_f64 (f64_to_f32 x)) x = true) ↔
      f32_to_f64 (f64_to_f32 x) = x := by
  constructor
  · exact rt32_exact x
  · intro h
    rw [h]
    unfold ieeeEq64
    simp [hx]

/-- Spine induction for `ItemList` (the element type is left opaque), a
workaround for the multi-motive recursor of the mutual inductive. -/
theorem ItemList.spineInductionI {motive : ItemList → Prop} (nil : motive .nil)
    (cons : ∀ h t, motive t → motive (.cons h t)) : ∀ l, motive l
  | .nil => nil
  | .cons h t => cons h t (ItemList.spineInductionI nil cons t)

/-- Spine induction for `PairList`. -/
theorem PairList.spineInductionP {motive : PairList → Prop} (nil : motive .nil)
    (cons : ∀ k v t, motive t → motive (.cons k v t)) : ∀ l, motive l
  | .nil => nil
  | .cons k v t => cons k v t (PairList.spineInductionP nil cons t)

theorem PairList.append_assoc (a b c : PairList) :
    (a.append b).append c = a.append (b.append c) := by
  induction a using PairList.spineInductionP with
  | nil => rfl
  | cons k v t ih => simp [PairList.append, ih]

theorem PairList.toList_append (a b : PairList) :
    (a.append b).toList = a.toList ++ b.toList := by
  induction a using PairList.spineInductionP with
  | nil => rfl
  | cons k v t ih => simp [PairList.append, PairList.toList, ih]

theorem PairList.ofList_toList (l : PairList) : PairList.ofList l.toList = l := by
  induction l using PairList.spineInductionP with
  | nil => rfl
  | cons k v t ih => simp [PairList.toList, PairList.ofList, ih]

theorem hasKeyCollision_append (a b : PairList) (k : DataItem) :
    hasKeyCollision (a.append b) k = (hasKeyCollision a k || hasKeyCollision b k) := by
  unfold hasKeyCollision
  rw [PairList.toList_append, List.any_append]

/-- Dropping earlier entries preserves the no-collision invariant. -/
theorem pairsAddOK_anti (l : PairList) : ∀ (a b : PairList),
    pairsAddOK (a.append b) l = true → pairsAddOK b l = true := by
  induction l using PairList.spineInductionP with
  | nil => intro a b _; rfl
  | cons k v t ih =>
    intro a b h
    unfold pairsAddOK at h ⊢
    rw [Bool.and_eq_true] at h ⊢
    obtain ⟨h1, h2⟩ := h
    rw [hasKeyCollision_append, Bool.not_or, Bool.and_eq_true] at h1
    refine ⟨h1.2, ?_⟩
    rw [PairList.append_assoc] at h2
    exact ih a (b.append (.cons k v .nil)) h2

/-- `IndexMap::extend` with no colliding keys is a plain append. -/
theorem extendEntries_no_collide (news : PairList) : ∀ (acc : PairList),
    pairsAddOK acc news = true →
    extendEntries acc.toList news.toList = acc.toList ++ news.toList := by
  induction news using PairList.spineInductionP with
  | nil => intro acc _; simp [PairList.toList, extendEntries]
  | cons k v t ih =>
    intro acc h
    unfold pairsAddOK at h
    rw [Bool.and_eq_true] at h
    obtain ⟨h1, h2⟩ := h
    have hstep : extendStep acc.toList k v = acc.toList ++ [(k, v)] := by
      unfold extendStep
      unfold hasKeyCollision at h1
      simp only [Bool.not_eq_true'] at h1
      rw [if_neg]
      simp only [h1, Bool.false_eq_true, not_false_eq_true]
    have hacc : acc.toList ++ [(k, v)] = (acc.append (.cons k v .nil)).toList := by
      rw [PairList.toList_append]; rfl
    unfold extendEntries at ih ⊢
    simp only [PairList.toList, List.foldl_cons, hstep, hacc]
    rw [ih _ h2, PairList.toList_append]
    simp [PairList.toList]

/-- Head shape of `encode_u64_number`: one header byte carrying the major
type and an additional-information value of at most 27. -/
theorem encode_u64_head (m n : Nat) :
    ∃ a tail, encode_u64_number m n = (m * 32 + a) :: tail ∧ a ≤ 27 := by
  unfold encode_u64_number
  by_cases h23 : n ≤ 23
  · exact ⟨n, [], by simp [h23], by omega⟩
  · by_cases h8 : n < 256
    · exact ⟨24, [n], by norm_num [h23, h8], by omega⟩
    · by_cases h16 : n < 65536
      · exact ⟨25, beBytes 2 n, by norm_num [h23, h8, h16], by omega⟩
      · by_cases h32 : n < 4294967296
        · exact ⟨26, beBytes 4 n, by norm_num [h23, h8, h16, h32], by omega⟩
        · exact ⟨27, beBytes 8 n, by norm_num [h23, h8, h16, h32], by omega⟩

/-- Every encoding is non-empty and never starts with a break byte. -/
theorem encode_head_ne_255 (v : DataItem) :
    ∃ b t, DataItem.encode v = b :: t ∧ b ≠ 255 := by
  cases v with
  | unsigned n =>
    obtain ⟨a, tail, he, ha⟩ := encode_u64_head 0 n
    refine ⟨0 * 32 + a, tail, ?_, by omega⟩
    rw [show DataItem.encode (.unsigned n) = encode_u64_number 0 n from rfl, he]
  | signed n =>
    obtain ⟨a, tail, he, ha⟩ := encode_u64_head 1 n
    refine ⟨1 * 32 + a, tail, ?_, by omega⟩
    rw [show DataItem.encode (.signed n) = encode_u64_number 1 n from rfl, he]
  | byte indef chunks =>
    cases indef with
    | true => exact ⟨95, _, rfl, by omega⟩
    | false =>
      obtain ⟨a, tail, he, ha⟩ := encode_u64_head 2 chunks.flatten.length
      refine ⟨2 * 32 + a, tail ++ chunks.flatten, ?_, by omega⟩
      rw [show DataItem.encode (.byte false chunks) =
        encode_u64_number 2 chunks.flatten.length ++ chunks.flatten from rfl, he]
      rfl
  | text indef chunks =>
    cases indef with
    | true => exact ⟨127, _, rfl, by omega⟩
    | false =>
      obtain ⟨a, tail, he, ha⟩ := encode_u64_head 3 chunks.flatten.length
      refine ⟨3 * 32 + a, tail ++ chunks.flatten, ?_, by omega⟩
      rw [show DataItem.encode (.text false chunks) =
        encode_u64_number 3 chunks.flatten.length ++ chunks.flatten from rfl, he]
      rfl
  | array indef items =>
    cases indef with
    | true => exact ⟨159, _, rfl, by omega⟩
    | false =>
      obtain ⟨a, tail, he, ha⟩ := encode_u64_head 4 items.length
      refine ⟨4 * 32 + a, tail ++ encodeItems items, ?_, by omega⟩
      rw [show DataItem.encode (.array false items) =
        encode_u64_number 4 items.length ++ encodeItems items from rfl, he]
      rfl
  | map indef entries =>
    cases indef with
    | true => exact ⟨191, _, rfl, by omega⟩
    | false =>
      obtain ⟨a, tail, he, ha⟩ := encode_u64_head 5 entries.length
      refine ⟨5 * 32 + a, tail ++ encodePairs entries, ?_, by omega⟩
      rw [show DataItem.encode (.map false entries) =
        encode_u64_number 5 entries.length ++ encodePairs entries from rfl, he]
      rfl
  | tag n content =>
    obtain ⟨a, tail, he, ha⟩ := encode_u64_head 6 n
    refine ⟨6 * 32 + a, tail ++ DataItem.encode content, ?_, by omega⟩
    rw [show DataItem.encode (.tag n content) =
      encode_u64_number 6 n ++ DataItem.encode content from rfl, he]
    rfl
  | boolean b => cases b with
    | false => exact ⟨244, [], rfl, by omega⟩
    | true => exact ⟨245, [], rfl, by omega⟩
  | null => exact ⟨246, [], rfl, by omega⟩
  | undefined => exact ⟨247, [], rfl, by omega⟩
  | floating bits =>
    rw [show DataItem.encode (.floating bits) = encode_f64_number 7 bits from rfl]
    unfold encode_f64_number
    by_cases h1 : ieeeEq64 (f16_to_f64 (f64_to_f16 bits)) bits = true
    · exact ⟨7 * 32 + 25, beBytes 2 (f64_to_f16 bits), by simp only [h1, if_true], by omega⟩
    · by_cases h2 : ieeeEq64 (f32_to_f64 (f64_to_f32 bits)) bits = true
      · refine ⟨7 * 32 + 26, beBytes 4 (f64_to_f32 bits), ?_, by omega⟩
        simp only [h1, h2, if_true, if_false, Bool.false_eq_true]
      · refine ⟨7 * 32 + 27, beBytes 8 bits, ?_, by omega⟩
        simp only [h1, h2, if_false, Bool.false_eq_true]
  | genericSimple n =>
    by_cases h : n ≤ 23
    · refine ⟨7 * 32 + n, [], ?_, by omega⟩
      rw [show DataItem.encode (.genericSimple n) =
        if n ≤ 23 then [7 * 32 + n] else [7 * 32 + 24, n] from rfl, if_pos h]
    · refine ⟨248, [n], ?_, by omega⟩
      rw [show DataItem.encode (.genericSimple n) =
        if n ≤ 23 then [7 * 32 + n] else [7 * 32 + 24, n] from rfl, if_neg h]

/-- The encoded chunk train of an indefinite byte/text item decodes back to
exactly the same chunk list, stopping at the break byte. -/
theorem rt_chunks (mt : Nat) :
    ∀ (chunks : List (List Nat)) (fuel : Nat) (rest : List Nat),
    (∀ c ∈ chunks, c.length < 2 ^ 64) →
    chunks.length + 1 ≤ fuel →
    decode_indefinite_byte_or_text fuel mt
      ((chunks.flatMap fun c => encode_u64_number mt c.length ++ c) ++ 255 :: rest)
      = .ok (chunks, 255 :: rest) := by
  intro chunks
  induction chunks with
  | nil =>
    intro fuel rest _ hfuel
    cases fuel with
    | zero => omega
    | succ f => simp [decode_indefinite_byte_or_text]
  | cons c t ih =>
    intro fuel rest hlen hfuel
    cases fuel with
    | zero => omega
    | succ f =>
      obtain ⟨a, tail, he, ha, hopt, hnum⟩ :=
        extract_encode_u64 mt c.length (hlen c (by simp)) 
          (c ++ ((t.flatMap fun c => encode_u64_number mt c.length ++ c) ++ 255 :: rest))
      have hinput : ((c :: t).flatMap fun c => encode_u64_number mt c.length ++ c) ++ 255 :: rest
          = (mt * 32 + a) :: (tail ++ (c ++ ((t.flatMap fun c => encode_u64_number mt c.length ++ c) ++ 255 :: rest))) := by
        simp only [List.flatMap_cons, he]
        simp [List.append_assoc]
      rw [hinput]
      simp only [decode_indefinite_byte_or_text]
      have hb : ¬(mt * 32 + a = 255) := by omega
      rw [if_neg hb, header_div mt a (by omega), header_mod mt a (by omega), if_neg (by simp)]
      rw [hnum]
      dsimp only
      have hcol : collect_vec_u8
          (c ++ ((t.flatMap fun c => encode_u64_number mt c.length ++ c) ++ 255 :: rest))
          c.length = .ok (c, (t.flatMap fun c => encode_u64_number mt c.length ++ c) ++ 255 :: rest) :=
        collect_vec_u8_exact c _
      rw [hcol]
      dsimp only
      rw [ih f rest (fun c hc => hlen c (by simp [hc])) (by simp at hfuel; omega)]

theorem PairList.append_nil (l : PairList) : l.append .nil = l := by
  induction l using PairList.spineInductionP with
  | nil => rfl
  | cons k v t ih => simp [PairList.append, ih]

theorem dsf_24 (b : Nat) (hb : ¬b < 32) (rest : List Nat) :
    decode_simple_or_floating 24 (b :: rest) = .ok (.genericSimple b, rest) := by
  unfold decode_simple_or_floating
  rw [if_neg (by omega), if_neg (by omega), if_neg (by omega), if_neg (by omega),
    if_neg (by omega), if_pos rfl]
  dsimp only
  rw [if_neg hb]

theorem fuelOfItems_pos (l : ItemList) : 0 < fuelOfItems l := by
  cases l <;> simp [fuelOfItems]

theorem fuelOfPairs_pos (l : PairList) : 0 < fuelOfPairs l := by
  cases l <;> simp [fuelOfPairs]

mutual

theorem rt_value : ∀ (v : DataItem) (fuel : Nat) (rest : List Nat),
    WFValue v = true → fuelOfValue v ≤ fuel →
    decode_value fuel (DataItem.encode v ++ rest) = .ok (v, rest)
  | .unsigned n, fuel, rest, hwf, hfuel => by
    cases fuel with
    | zero => simp [fuelOfValue] at hfuel
    | succ f =>
      have hn : n < 2 ^ 64 := by simpa [WFValue] using hwf
      obtain ⟨a, tail, he, ha, _, hnum⟩ := extract_encode_u64 0 n hn rest
      rw [show DataItem.encode (.unsigned n) = encode_u64_number 0 n from rfl, he,
        List.cons_append]
      simp only [decode_value]
      rw [header_div 0 a (by omega), header_mod 0 a (by omega)]
      norm_num
      rw [hnum]
  | .signed n, fuel, rest, hwf, hfuel => by
    cases fuel with
    | zero => simp [fuelOfValue] at hfuel
    | succ f =>
      have hn : n < 2 ^ 64 := by simpa [WFValue] using hwf
      obtain ⟨a, tail, he, ha, _, hnum⟩ := extract_encode_u64 1 n hn rest
      rw [show DataItem.encode (.signed n) = encode_u64_number 1 n from rfl, he,
        List.cons_append]
      simp only [decode_value]
      rw [header_div 1 a (by omega), header_mod 1 a (by omega)]
      norm_num
      rw [hnum]
  | .byte indef chunks, fuel, rest, hwf, hfuel => by
    cases indef with
    | false =>
      cases fuel with
      | zero => simp [fuelOfValue] at hfuel
      | succ f =>
        cases f with
        | zero => simp [fuelOfValue] at hfuel
        | succ g =>
          have hone : chunks.length = 1 := by
            simp [WFValue] at hwf
            exact hwf.2
          obtain ⟨c, rfl⟩ := List.length_eq_one.mp hone
          have hlen : c.length < 2 ^ 64 := by
            simp [WFValue, chunksWF] at hwf
            exact_mod_cast hwf.1
          have hflat : ([c] : List (List Nat)).flatten = c := by simp
          obtain ⟨a, tail, he, ha, hopt, _⟩ := extract_encode_u64 2 c.length hlen (c ++ rest)
          rw [show DataItem.encode (.byte false [c]) =
            encode_u64_number 2 ([c] : List (List Nat)).flatten.length ++ ([c] : List (List Nat)).flatten from rfl,
            hflat, he]
          rw [show (((2 * 32 + a) :: tail) ++ c) ++ rest = (2 * 32 + a) :: (tail ++ (c ++ rest)) by
            simp [List.append_assoc]]
          simp only [decode_value]
          rw [header_div 2 a (by omega), header_mod 2 a (by omega)]
          norm_num
          simp only [decode_byte_or_text]
          rw [hopt]
          dsimp only
          rw [collect_vec_u8_exact c rest]
    | true =>
      cases fuel with
      | zero => simp [fuelOfValue] at hfuel
      | succ f =>
        cases f with
        | zero => simp [fuelOfValue] at hfuel; omega
        | succ g =>
          have hlen : ∀ c ∈ chunks, c.length < 2 ^ 64 := by
            simp [WFValue, chunksWF] at hwf
            intro c hc
            exact (hwf c hc).1
          rw [show DataItem.encode (.byte true chunks) =
            (2 * 32 + 31) :: ((chunks.flatMap fun c => encode_u64_number 2 c.length ++ c) ++ [255]) from rfl]
          rw [show ((2 * 32 + 31) :: ((chunks.flatMap fun c => encode_u64_number 2 c.length ++ c) ++ [255])) ++ rest
            = (2 * 32 + 31) :: ((chunks.flatMap fun c => encode_u64_number 2 c.length ++ c) ++ 255 :: rest) by
            simp [List.append_assoc]]
          simp only [decode_value]
          rw [header_div 2 31 (by omega), header_mod 2 31 (by omega)]
          norm_num
          simp only [decode_byte_or_text]
          rw [show extract_optional_number 31
              ((chunks.flatMap fun c => encode_u64_number 2 c.length ++ c) ++ 255 :: rest)
            = .ok (none, (chunks.flatMap fun c => encode_u64_number 2 c.length ++ c) ++ 255 :: rest) from rfl]
          dsimp only
          rw [rt_chunks 2 chunks g rest hlen (by simp [fuelOfValue] at hfuel; omega)]
          rfl
  | .text indef chunks, fuel, rest, hwf, hfuel => by
    cases indef with
    | false =>
      cases fuel with
      | zero => simp [fuelOfValue] at hfuel
      | succ f =>
        cases f with
        | zero => simp [fuelOfValue] at hfuel
        | succ g =>
          have hone : chunks.length = 1 := by
            simp [WFValue] at hwf
            exact hwf.1.2
          obtain ⟨c, rfl⟩ := List.length_eq_one.mp hone
          have hlen : c.length < 2 ^ 64 := by
            simp [WFValue, chunksWF] at hwf
            exact_mod_cast hwf.1.1
          have hutf : validUtf8 c = true := by
            simp [WFValue] at hwf
            exact hwf.2
          have hflat : ([c] : List (List Nat)).flatten = c := by simp
          obtain ⟨a, tail, he, ha, hopt, _⟩ := extract_encode_u64 3 c.length hlen (c ++ rest)
          rw [show DataItem.encode (.text false [c]) =
            encode_u64_number 3 ([c] : List (List Nat)).flatten.length ++ ([c] : List (List Nat)).flatten from rfl,
            hflat, he]
          rw [show (((3 * 32 + a) :: tail) ++ c) ++ rest = (3 * 32 + a) :: (tail ++ (c ++ rest)) by
            simp [List.append_assoc]]
          simp only [decode_value]
          rw [header_div 3 a (by omega), header_mod 3 a (by omega)]
          norm_num
          simp only [decode_byte_or_text]
          rw [hopt]
          dsimp only
          rw [collect_vec_u8_exact c rest]
          dsimp only
          simp [hutf]
    | true =>
      cases fuel with
      | zero => simp [fuelOfValue] at hfuel
      | succ f =>
        cases f with
        | zero => simp [fuelOfValue] at hfuel; omega
        | succ g =>
          have hlen : ∀ c ∈ chunks, c.length < 2 ^ 64 := by
            simp [WFValue, chunksWF] at hwf
            intro c hc
            exact ((hwf.1 c hc).1 : _)
          have hutf : chunks.all validUtf8 = true := by
            simp [WFValue] at hwf
            simp [List.all_eq_true]
            exact hwf.2
          rw [show DataItem.encode (.text true chunks) =
            (3 * 32 + 31) :: ((chunks.flatMap fun c => encode_u64_number 3 c.length ++ c) ++ [255]) from rfl]
          rw [show ((3 * 32 + 31) :: ((chunks.flatMap fun c => encode_u64_number 3 c.length ++ c) ++ [255])) ++ rest
            = (3 * 32 + 31) :: ((chunks.flatMap fun c => encode_u64_number 3 c.length ++ c) ++ 255 :: rest) by
            simp [List.append_assoc]]
          simp only [decode_value]
          rw [header_div 3 31 (by omega), header_mod 3 31 (by omega)]
          norm_num
          simp only [decode_byte_or_text]
          rw [show extract_optional_number 31
              ((chunks.flatMap fun c => encode_u64_number 3 c.length ++ c) ++ 255 :: rest)
            = .ok (none, (chunks.flatMap fun c => encode_u64_number 3 c.length ++ c) ++ 255 :: rest) from rfl]
          dsimp only
          rw [rt_chunks 3 chunks g rest hlen (by simp [fuelOfValue] at hfuel; omega)]
          dsimp only
          rw [if_pos (by simpa [List.all_eq_true] using hutf)]
          rfl
  | .array indef items, fuel, rest, hwf, hfuel => by
    cases indef with
    | false =>
      cases fuel with
      | zero => simp [fuelOfValue] at hfuel
      | succ f =>
        cases f with
        | zero =>
          have := fuelOfItems_pos items
          simp [fuelOfValue] at hfuel
          omega
        | succ g =>
          have hn : items.length < 2 ^ 64 := by
            simp [WFValue] at hwf
            exact hwf.1
          have hwi : WFItems items = true := by
            simp [WFValue] at hwf
            exact hwf.2
          obtain ⟨a, tail, he, ha, hopt, _⟩ :=
            extract_encode_u64 4 items.length hn (encodeItems items ++ rest)
          rw [show DataItem.encode (.array false items) =
            encode_u64_number 4 items.length ++ encodeItems items from rfl, he]
          rw [show (((4 * 32 + a) :: tail) ++ encodeItems items) ++ rest
            = (4 * 32 + a) :: (tail ++ (encodeItems items ++ rest)) by simp [List.append_assoc]]
          simp only [decode_value]
          rw [header_div 4 a (by omega), header_mod 4 a (by omega)]
          norm_num
          simp only [decode_array]
          rw [hopt]
          dsimp only
          rw [rt_items_def items g rest hwi (by simp [fuelOfValue] at hfuel; omega)]
    | true =>
      cases fuel with
      | zero => simp [fuelOfValue] at hfuel
      | succ f =>
        cases f with
        | zero =>
          have := fuelOfItems_pos items
          simp [fuelOfValue] at hfuel
          omega
        | succ g =>
          have hwi : WFItems items = true := by
            simp [WFValue] at hwf
            exact hwf.2
          rw [show DataItem.encode (.array true items)
            = (4 * 32 + 31) :: (encodeItems items ++ [255]) from rfl]
          rw [show ((4 * 32 + 31) :: (encodeItems items ++ [255])) ++ rest
            = (4 * 32 + 31) :: (encodeItems items ++ 255 :: rest) by simp [List.append_assoc]]
          simp only [decode_value]
          rw [header_div 4 31 (by omega), header_mod 4 31 (by omega)]
          norm_num
          simp only [decode_array]
          rw [show extract_optional_number 31 (encodeItems items ++ 255 :: rest)
            = .ok (none, encodeItems items ++ 255 :: rest) from rfl]
          dsimp only
          rw [rt_items_ind items g rest hwi (by simp [fuelOfValue] at hfuel; omega)]
  | .map indef entries, fuel, rest, hwf, hfuel => by
    cases indef with
    | false =>
      cases fuel with
      | zero => simp [fuelOfValue] at hfuel
      | succ f =>
        cases f with
        | zero =>
          have := fuelOfPairs_pos entries
          simp [fuelOfValue] at hfuel
          omega
        | succ g =>
          have hn : entries.length < 2 ^ 64 := by
            simp [WFValue] at hwf
            exact_mod_cast hwf.1.1
          have hwp : WFPairs entries = true := by
            simp [WFValue] at hwf
            exact hwf.2
          have hok : pairsAddOK .nil entries = true := by
            simp [WFValue] at hwf
            exact hwf.1.2
          obtain ⟨a, tail, he, ha, hopt, _⟩ :=
            extract_encode_u64 5 entries.length hn (encodePairs entries ++ rest)
          rw [show DataItem.encode (.map false entries) =
            encode_u64_number 5 entries.length ++ encodePairs entries from rfl, he]
          rw [show (((5 * 32 + a) :: tail) ++ encodePairs entries) ++ rest
            = (5 * 32 + a) :: (tail ++ (encodePairs entries ++ rest)) by simp [List.append_assoc]]
          simp only [decode_value]
          rw [header_div 5 a (by omega), header_mod 5 a (by omega)]
          norm_num
          simp only [decode_map]
          rw [hopt]
          dsimp only
          rw [rt_pairs_def entries .nil g rest hwp hok (by simp [fuelOfValue] at hfuel; omega)]
          rfl
    | true =>
      cases fuel with
      | zero => simp [fuelOfValue] at hfuel
      | succ f =>
        cases f with
        | zero =>
          have := fuelOfPairs_pos entries
          simp [fuelOfValue] at hfuel
          omega
        | succ g =>
          have hwp : WFPairs entries = true := by
            simp [WFValue] at hwf
            exact hwf.2
          have hok : pairsAddOK .nil entries = true := by
            simp [WFValue] at hwf
            exact hwf.1.2
          rw [show DataItem.encode (.map true entries)
            = (5 * 32 + 31) :: (encodePairs entries ++ [255]) from rfl]
          rw [show ((5 * 32 + 31) :: (encodePairs entries ++ [255])) ++ rest
            = (5 * 32 + 31) :: (encodePairs entries ++ 255 :: rest) by simp [List.append_assoc]]
          simp only [decode_value]
          rw [header_div 5 31 (by omega), header_mod 5 31 (by omega)]
          norm_num
          simp only [decode_map]
          rw [show extract_optional_number 31 (encodePairs entries ++ 255 :: rest)
            = .ok (none, encodePairs entries ++ 255 :: rest) from rfl]
          dsimp only
          rw [rt_pairs_ind entries g rest hwp hok (by simp [fuelOfValue] at hfuel; omega)]
  | .tag n content, fuel, rest, hwf, hfuel => by
    cases fuel with
    | zero => simp [fuelOfValue] at hfuel
    | succ f =>
      have hn : n < 2 ^ 64 := by
        simp [WFValue] at hwf
        exact hwf.1
      have hwc : WFValue content = true := by
        simp [WFValue] at hwf
        exact hwf.2
      obtain ⟨a, tail, he, ha, _, hnum⟩ :=
        extract_encode_u64 6 n hn (DataItem.encode content ++ rest)
      rw [show DataItem.encode (.tag n content) =
        encode_u64_number 6 n ++ DataItem.encode content from rfl, he]
      rw [show (((6 * 32 + a) :: tail) ++ DataItem.encode content) ++ rest
        = (6 * 32 + a) :: (tail ++ (DataItem.encode content ++ rest)) by simp [List.append_assoc]]
      simp only [decode_value]
      rw [header_div 6 a (by omega), header_mod 6 a (by omega)]
      norm_num
      rw [hnum]
      dsimp only
      rw [rt_value content f rest hwc (by simp [fuelOfValue] at hfuel; omega)]
  | .boolean b, fuel, rest, hwf, hfuel => by
    cases fuel with
    | zero => simp [fuelOfValue] at hfuel
    | succ f =>
      cases b with
      | false =>
        rw [show DataItem.encode (.boolean false) ++ rest = 244 :: rest from rfl]
        simp only [decode_value]
        norm_num [decode_simple_or_floating]
      | true =>
        rw [show DataItem.encode (.boolean true) ++ rest = 245 :: rest from rfl]
        simp only [decode_value]
        norm_num [decode_simple_or_floating]
  | .null, fuel, rest, hwf, hfuel => by
    cases fuel with
    | zero => simp [fuelOfValue] at hfuel
    | succ f =>
      rw [show DataItem.encode .null ++ rest = 246 :: rest from rfl]
      simp only [decode_value]
      norm_num [decode_simple_or_floating]
  | .undefined, fuel, rest, hwf, hfuel => by
    cases fuel with
    | zero => simp [fuelOfValue] at hfuel
    | succ f =>
      rw [show DataItem.encode .undefined ++ rest = 247 :: rest from rfl]
      simp only [decode_value]
      norm_num [decode_simple_or_floating]
  | .floating bits, fuel, rest, hwf, hfuel => by
    cases fuel with
    | zero => simp [fuelOfValue] at hfuel
    | succ f =>
      have hb : bits < 2 ^ 64 := by simpa [WFValue] using hwf
      rw [show DataItem.encode (.floating bits) = encode_f64_number 7 bits from rfl]
      unfold encode_f64_number
      by_cases h1 : ieeeEq64 (f16_to_f64 (f64_to_f16 bits)) bits = true
      · rw [if_pos h1, List.cons_append]
        simp only [decode_value]
        rw [header_div 7 25 (by omega), header_mod 7 25 (by omega)]
        norm_num
        unfold decode_simple_or_floating
        norm_num
        rw [extract_number_bytes 25 2 (f64_to_f16 bits) (by omega) (by omega) (by norm_num)
          (by simpa using f64_to_f16_lt bits) rest]
        dsimp only
        rw [rt16_exact bits h1]
      · rw [if_neg h1]
        by_cases h2 : ieeeEq64 (f32_to_f64 (f64_to_f32 bits)) bits = true
        · rw [if_pos h2, List.cons_append]
          simp only [decode_value]
          rw [header_div 7 26 (by omega), header_mod 7 26 (by omega)]
          norm_num
          unfold decode_simple_or_floating
          norm_num
          rw [extract_number_bytes 26 4 (f64_to_f32 bits) (by omega) (by omega) (by norm_num)
            (by simpa using f64_to_f32_lt bits) rest]
          dsimp only
          rw [rt32_exact bits h2]
        · rw [if_neg h2, List.cons_append]
          simp only [decode_value]
          rw [header_div 7 27 (by omega), header_mod 7 27 (by omega)]
          norm_num
          unfold decode_simple_or_floating
          norm_num
          rw [extract_number_bytes 27 8 bits (by omega) (by omega) (by norm_num)
            (by simpa using hb) rest]
  | .genericSimple n, fuel, rest, hwf, hfuel => by
    cases fuel with
    | zero => simp [fuelOfValue] at hfuel
    | succ f =>
      have hr : n ≤ 19 ∨ (32 ≤ n ∧ n ≤ 255) := by
        simp [WFValue] at hwf
        rcases hwf with h | h
        · exact Or.inl h
        · exact Or.inr h
      rcases hr with h19 | ⟨h32, h255⟩
      · rw [show DataItem.encode (.genericSimple n)
          = if n ≤ 23 then [7 * 32 + n] else [7 * 32 + 24, n] from rfl,
          if_pos (by omega), List.cons_append]
        simp only [decode_value]
        rw [header_div 7 n (by omega), header_mod 7 n (by omega)]
        norm_num
        unfold decode_simple_or_floating
        rw [if_pos (by omega : n ≤ 19)]
      · rw [show DataItem.encode (.genericSimple n)
          = if n ≤ 23 then [7 * 32 + n] else [7 * 32 + 24, n] from rfl,
          if_neg (by omega), List.cons_append]
        simp only [decode_value]
        rw [header_div 7 24 (by omega), header_mod 7 24 (by omega)]
        norm_num
        exact dsf_24 n (by omega) rest

theorem rt_items_def : ∀ (l : ItemList) (fuel : Nat) (rest : List Nat),
    WFItems l = true → fuelOfItems l ≤ fuel →
    decode_array_items fuel l.length (encodeItems l ++ rest) = .ok (l, rest)
  | .nil, fuel, rest, hwf, hfuel => by
    cases fuel with
    | zero => simp [fuelOfItems] at hfuel
    | succ f =>
      rw [show encodeItems .nil ++ rest = rest from rfl]
      rfl
  | .cons h t, fuel, rest, hwf, hfuel => by
    cases fuel with
    | zero => simp [fuelOfItems] at hfuel
    | succ f =>
      have hwh : WFValue h = true := by
        simp [WFItems] at hwf
        exact hwf.1
      have hwt : WFItems t = true := by
        simp [WFItems] at hwf
        exact hwf.2
      rw [show encodeItems (.cons h t) ++ rest
        = DataItem.encode h ++ (encodeItems t ++ rest) by
        simp [encodeItems, List.append_assoc]]
      rw [show (ItemList.cons h t).length = t.length + 1 from rfl]
      simp only [decode_array_items]
      rw [rt_value h f (encodeItems t ++ rest) hwh (by simp [fuelOfItems] at hfuel; omega)]
      dsimp only
      rw [rt_items_def t f rest hwt (by simp [fuelOfItems] at hfuel; omega)]

theorem rt_items_ind : ∀ (l : ItemList) (fuel : Nat) (rest : List Nat),
    WFItems l = true → fuelOfItems l ≤ fuel →
    extract_array_item fuel (encodeItems l ++ 255 :: rest) = .ok (l, 255 :: rest)
  | .nil, fuel, rest, hwf, hfuel => by
    cases fuel with
    | zero => simp [fuelOfItems] at hfuel
    | succ f =>
      rw [show encodeItems .nil ++ 255 :: rest = 255 :: rest from rfl]
      simp [extract_array_item]
  | .cons h t, fuel, rest, hwf, hfuel => by
    cases fuel with
    | zero => simp [fuelOfItems] at hfuel
    | succ f =>
      have hwh : WFValue h = true := by
        simp [WFItems] at hwf
        exact hwf.1
      have hwt : WFItems t = true := by
        simp [WFItems] at hwf
        exact hwf.2
      obtain ⟨b, tb, he, hb⟩ := encode_head_ne_255 h
      rw [show encodeItems (.cons h t) ++ 255 :: rest
        = DataItem.encode h ++ (encodeItems t ++ 255 :: rest) by
        simp [encodeItems, List.append_assoc]]
      rw [he, List.cons_append]
      simp only [extract_array_item]
      rw [if_neg hb, ← List.cons_append, ← he]
      rw [rt_value h f (encodeItems t ++ 255 :: rest) hwh (by simp [fuelOfItems] at hfuel; omega)]
      dsimp only
      rw [rt_items_ind t f rest hwt (by simp [fuelOfItems] at hfuel; omega)]

theorem rt_pairs_def : ∀ (l : PairList) (acc : PairList) (fuel : Nat) (rest : List Nat),
    WFPairs l = true → pairsAddOK acc l = true → fuelOfPairs l ≤ fuel →
    decode_map_pairs fuel l.length acc (encodePairs l ++ rest) = .ok (acc.append l, rest)
  | .nil, acc, fuel, rest, hwf, hok, hfuel => by
    cases fuel with
    | zero => simp [fuelOfPairs] at hfuel
    | succ f =>
      rw [show encodePairs .nil ++ rest = rest from rfl,
        show (PairList.nil).length = 0 from rfl, PairList.append_nil]
      rfl
  | .cons k v t, acc, fuel, rest, hwf, hok, hfuel => by
    cases fuel with
    | zero => simp [fuelOfPairs] at hfuel
    | succ f =>
      have hwk : WFValue k = true := by
        simp [WFPairs] at hwf
        exact hwf.1.1
      have hwv : WFValue v = true := by
        simp [WFPairs] at hwf
        exact hwf.1.2
      have hwt : WFPairs t = true := by
        simp [WFPairs] at hwf
        exact hwf.2
      have hcol : hasKeyCollision acc k = false := by
        unfold pairsAddOK at hok
        rw [Bool.and_eq_true] at hok
        simpa using hok.1
      have hok2 : pairsAddOK (acc.append (.cons k v .nil)) t = true := by
        unfold pairsAddOK at hok
        rw [Bool.and_eq_true] at hok
        exact hok.2
      rw [show encodePairs (.cons k v t) ++ rest
        = DataItem.encode k ++ (DataItem.encode v ++ (encodePairs t ++ rest)) by
        simp [encodePairs, List.append_assoc]]
      rw [show (PairList.cons k v t).length = t.length + 1 from rfl]
      simp only [decode_map_pairs]
      rw [rt_value k f _ hwk (by simp [fuelOfPairs] at hfuel; omega)]
      dsimp only
      rw [rt_value v f _ hwv (by simp [fuelOfPairs] at hfuel; omega)]
      dsimp only
      simp only [hcol, Bool.false_eq_true, if_false]
      rw [rt_pairs_def t (acc.append (.cons k v .nil)) f rest hwt hok2
        (by simp [fuelOfPairs] at hfuel; omega)]
      rw [PairList.append_assoc]
      rfl
  
theorem rt_pairs_ind : ∀ (l : PairList) (fuel : Nat) (rest : List Nat),
    WFPairs l = true → pairsAddOK .nil l = true → fuelOfPairs l ≤ fuel →
    extract_map_item fuel (encodePairs l ++ 255 :: rest) = .ok (l, 255 :: rest)
  | .nil, fuel, rest, hwf, hok, hfuel => by
    cases fuel with
    | zero => simp [fuelOfPairs] at hfuel
    | succ f =>
      rw [show encodePairs .nil ++ 255 :: rest = 255 :: rest from rfl]
      simp [extract_map_item]
  | .cons k v t, fuel, rest, hwf, hok, hfuel => by
    cases fuel with
    | zero => simp [fuelOfPairs] at hfuel
    | succ f =>
      have hwk : WFValue k = true := by
        simp [WFPairs] at hwf
        exact hwf.1.1
      have hwv : WFValue v = true := by
        simp [WFPairs] at hwf
        exact hwf.1.2
      have hwt : WFPairs t = true := by
        simp [WFPairs] at hwf
        exact hwf.2
      have hok2 : pairsAddOK (.cons k v .nil) t = true := by
        unfold pairsAddOK at hok
        rw [Bool.and_eq_true] at hok
        exact hok.2
      have hoknil : pairsAddOK .nil t = true := pairsAddOK_anti t (.cons k v .nil) .nil
        (by rw [PairList.append_nil]; exact hok2)
      obtain ⟨b, tb, he, hb⟩ := encode_head_ne_255 k
      rw [show encodePairs (.cons k v t) ++ 255 :: rest
        = DataItem.encode k ++ (DataItem.encode v ++ (encodePairs t ++ 255 :: rest)) by
        simp [encodePairs, List.append_assoc]]
      rw [he, List.cons_append]
      simp only [extract_map_item]
      rw [if_neg hb, ← List.cons_append, ← he]
      rw [rt_value k f _ hwk (by simp [fuelOfPairs] at hfuel; omega)]
      dsimp only
      rw [rt_value v f _ hwv (by simp [fuelOfPairs] at hfuel; omega)]
      dsimp only
      rw [rt_pairs_ind t f rest hwt hoknil (by simp [fuelOfPairs] at hfuel; omega)]
      dsimp only
      rw [show extendEntries [(k, v)] t.toList
        = (PairList.cons k v .nil).toList ++ t.toList by
        rw [← extendEntries_no_collide t (.cons k v .nil) hok2]
        rfl]
      rw [show (PairList.cons k v .nil).toList ++ t.toList = (PairList.cons k v t).toList from rfl,
        PairList.ofList_toList]

end

theorem encode_length_pos (v : DataItem) : 1 ≤ (DataItem.encode v).length := by
  obtain ⟨b, t, he, _⟩ := encode_head_ne_255 v
  simp [he]

theorem chunk_train_length (mt : Nat) (chunks : List (List Nat)) :
    chunks.length ≤ (chunks.flatMap fun c => encode_u64_number mt c.length ++ c).length := by
  induction chunks with
  | nil => simp
  | cons c t ih =>
    obtain ⟨a, tail, he, _⟩ := encode_u64_head mt c.length
    simp only [List.flatMap_cons, List.length_append, he]
    simp only [List.length_cons]
    omega

mutual

/-- The decoder depth requirement is linearly bounded by the encoded size. -/
theorem fuelOfValue_le : ∀ v : DataItem,
    fuelOfValue v ≤ 5 * (DataItem.encode v).length - 2
  | .unsigned n => by
    have := encode_length_pos (.unsigned n)
    simp only [fuelOfValue]
    omega
  | .signed n => by
    have := encode_length_pos (.signed n)
    simp only [fuelOfValue]
    omega
  | .byte indef chunks => by
    cases indef with
    | false =>
      have := encode_length_pos (.byte false chunks)
      simp only [fuelOfValue, Bool.false_eq_true, if_false]
      omega
    | true =>
      have h1 := chunk_train_length 2 chunks
      have h2 : (DataItem.encode (.byte true chunks)).length
          = (chunks.flatMap fun c => encode_u64_number 2 c.length ++ c).length + 2 := by
        rw [show DataItem.encode (.byte true chunks)
          = (2 * 32 + 31) :: ((chunks.flatMap fun c => encode_u64_number 2 c.length ++ c) ++ [255]) from rfl]
        simp
      simp only [fuelOfValue, if_true]
      omega
  | .text indef chunks => by
    cases indef with
    | false =>
      have := encode_length_pos (.text false chunks)
      simp only [fuelOfValue, Bool.false_eq_true, if_false]
      omega
    | true =>
      have h1 := chunk_train_length 3 chunks
      have h2 : (DataItem.encode (.text true chunks)).length
          = (chunks.flatMap fun c => encode_u64_number 3 c.length ++ c).length + 2 := by
        rw [show DataItem.encode (.text true chunks)
          = (3 * 32 + 31) :: ((chunks.flatMap fun c => encode_u64_number 3 c.length ++ c) ++ [255]) from rfl]
        simp
      simp only [fuelOfValue, if_true]
      omega
  | .array indef items => by
    have h1 := fuelOfItems_le items
    cases indef with
    | false =>
      obtain ⟨a, tail, he, _⟩ := encode_u64_head 4 items.length
      have h2 : (DataItem.encode (.array false items)).length
          = tail.length + 1 + (encodeItems items).length := by
        rw [show DataItem.encode (.array false items)
          = encode_u64_number 4 items.length ++ encodeItems items from rfl, he]
        simp
        omega
      simp only [fuelOfValue]
      omega
    | true =>
      have h2 : (DataItem.encode (.array true items)).length
          = (encodeItems items).length + 2 := by
        rw [show DataItem.encode (.array true items)
          = (4 * 32 + 31) :: (encodeItems items ++ [255]) from rfl]
        simp
      simp only [fuelOfValue]
      omega
  | .map indef entries => by
    have h1 := fuelOfPairs_le entries
    cases indef with
    | false =>
      obtain ⟨a, tail, he, _⟩ := encode_u64_head 5 entries.length
      have h2 : (DataItem.encode (.map false entries)).length
          = tail.length + 1 + (encodePairs entries).length := by
        rw [show DataItem.encode (.map false entries)
          = encode_u64_number 5 entries.length ++ encodePairs entries from rfl, he]
        simp
        omega
      simp only [fuelOfValue]
      omega
    | true =>
      have h2 : (DataItem.encode (.map true entries)).length
          = (encodePairs entries).length + 2 := by
        rw [show DataItem.encode (.map true entries)
          = (5 * 32 + 31) :: (encodePairs entries ++ [255]) from rfl]
        simp
      simp only [fuelOfValue]
      omega
  | .tag n content => by
    have h1 := fuelOfValue_le content
    have h2 := encode_length_pos content
    obtain ⟨a, tail, he, _⟩ := encode_u64_head 6 n
    have h3 : (DataItem.encode (.tag n content)).length
        = tail.length + 1 + (DataItem.encode content).length := by
      rw [show DataItem.encode (.tag n content)
        = encode_u64_number 6 n ++ DataItem.encode content from rfl, he]
      simp
      omega
    simp only [fuelOfValue]
    omega
  | .boolean b => by
    have := encode_length_pos (.boolean b)
    simp only [fuelOfValue]
    omega
  | .null => by
    simp only [fuelOfValue]
    norm_num [DataItem.encode]
  | .undefined => by
    simp only [fuelOfValue]
    norm_num [DataItem.encode]
  | .floating bits => by
    have := encode_length_pos (.floating bits)
    simp only [fuelOfValue]
    omega
  | .genericSimple n => by
    have := encode_length_pos (.genericSimple n)
    simp only [fuelOfValue]
    omega

/-- Companion bound for element sequences. -/
theorem fuelOfItems_le : ∀ l : ItemList,
    fuelOfItems l ≤ 5 * (encodeItems l).length + 1
  | .nil => by simp [fuelOfItems, encodeItems]
  | .cons h t => by
    have h1 := fuelOfValue_le h
    have h2 := fuelOfItems_le t
    have h3 := encode_length_pos h
    have h4 : (encodeItems (.cons h t)).length
        = (DataItem.encode h).length + (encodeItems t).length := by
      rw [show encodeItems (.cons h t) = DataItem.encode h ++ encodeItems t from rfl]
      simp
    simp only [fuelOfItems]
    omega

/-- Companion bound for entry sequences. -/
theorem fuelOfPairs_le : ∀ l : PairList,
    fuelOfPairs l ≤ 5 * (encodePairs l).length + 1
  | .nil => by simp [fuelOfPairs, encodePairs]
  | .cons k v t => by
    have h1 := fuelOfValue_le k
    have h2 := fuelOfValue_le v
    have h3 := fuelOfPairs_le t
    have h4 := encode_length_pos k
    have h5 := encode_length_pos v
    have h6 : (encodePairs (.cons k v t)).length
        = (DataItem.encode k).length + ((DataItem.encode v).length + (encodePairs t).length) := by
      rw [show encodePairs (.cons k v t)
        = DataItem.encode k ++ (DataItem.encode v ++ encodePairs t) by
        simp [encodePairs, List.append_assoc]]
      simp
    simp only [fuelOfPairs]
    omega

end

/-- Well-formed values decode back from their own encoding. -/
theorem decode_encode (v : DataItem) (hwf : WFValue v = true) :
    DataItem.decode (DataItem.encode v) = .ok v := by
  unfold DataItem.decode
  have hb := fuelOfValue_le v
  have hl := encode_length_pos v
  have h := rt_value v (5 * (DataItem.encode v).length + 1) [] hwf (by omega)
  rw [List.append_nil] at h
  rw [h]

theorem collect_append (n : Nat) : ∀ (input s bytes rest : List Nat),
    collect_vec_u8 input n = .ok (bytes, rest) →
    collect_vec_u8 (input ++ s) n = .ok (bytes, rest ++ s) := by
  induction n with
  | zero =>
    intro input s bytes rest h
    simp only [collect_vec_u8] at h ⊢
    cases h
    rfl
  | succ n ih =>
    intro input s bytes rest h
    cases input with
    | nil =>
      simp only [collect_vec_u8] at h
      cases h
    | cons b t =>
      simp only [collect_vec_u8, List.cons_append, List.append_eq] at h ⊢
      cases hc : collect_vec_u8 t n with
      | error e =>
        rw [hc] at h
        simp only at h
        cases h
      | ok p =>
        obtain ⟨bytes1, rest1⟩ := p
        rw [hc] at h
        simp only at h
        cases h
        have h2 := ih t s _ _ hc
        simp only [List.append_eq] at h2
        rw [h2]

theorem extract_optional_append (a : Nat) (input s : List Nat) (o : Option Nat)
    (rest : List Nat) (h : extract_optional_number a input = .ok (o, rest)) :
    extract_optional_number a (input ++ s) = .ok (o, rest ++ s) := by
  unfold extract_optional_number at h ⊢
  by_cases h23 : a ≤ 23
  · rw [if_pos h23] at h ⊢
    cases h
    rfl
  · rw [if_neg h23] at h ⊢
    by_cases h27 : a ≤ 27
    · rw [if_pos h27] at h ⊢
      cases hc : collect_vec_u8 input (2 ^ (a - 24)) with
      | error e =>
        rw [hc] at h
        simp only at h
        cases h
      | ok p =>
        obtain ⟨bytes1, rest1⟩ := p
        rw [hc] at h
        simp only at h
        cases h
        have h2 := collect_append _ input s _ _ hc
        rw [h2]
    · rw [if_neg h27] at h ⊢
      by_cases h30 : a ≤ 30
      · rw [if_pos h30] at h
        cases h
      · rw [if_neg h30] at h ⊢
        cases h
        rfl

theorem extract_number_append (a : Nat) (input s : List Nat) (n : Nat)
    (rest : List Nat) (h : extract_number a input = .ok (n, rest)) :
    extract_number a (input ++ s) = .ok (n, rest ++ s) := by
  unfold extract_number at h ⊢
  cases ho : extract_optional_number a input with
  | error e =>
    rw [ho] at h
    simp only at h
    cases h
  | ok p =>
    obtain ⟨o, rest1⟩ := p
    rw [ho] at h
    cases o with
    | none => simp only at h; cases h
    | some m =>
      simp only at h
      cases h
      have h2 := extract_optional_append a input s _ _ ho
      rw [h2]
theorem dsf_append (a : Nat) (input s : List Nat) (v : DataItem)
    (rest : List Nat) (h : decode_simple_or_floating a input = .ok (v, rest)) :
    decode_simple_or_floating a (input ++ s) = .ok (v, rest ++ s) := by
  unfold decode_simple_or_floating at h ⊢
  by_cases h19 : a ≤ 19
  · rw [if_pos h19] at h ⊢; cases h; rfl
  · rw [if_neg h19] at h ⊢
    by_cases h20 : a = 20
    · rw [if_pos h20] at h ⊢; cases h; rfl
    · rw [if_neg h20] at h ⊢
      by_cases h21 : a = 21
      · rw [if_pos h21] at h ⊢; cases h; rfl
      · rw [if_neg h21] at h ⊢
        by_cases h22 : a = 22
        · rw [if_pos h22] at h ⊢; cases h; rfl
        · rw [if_neg h22] at h ⊢
          by_cases h23 : a = 23
          · rw [if_pos h23] at h ⊢; cases h; rfl
          · rw [if_neg h23] at h ⊢
            by_cases h24 : a = 24
            · rw [if_pos h24] at h ⊢
              cases input with
              | nil => cases h
              | cons b t =>
                simp only [List.cons_append] at h ⊢
                by_cases hb : b < 32
                · rw [if_pos hb] at h; cases h
                · rw [if_neg hb] at h ⊢; cases h; rfl
            · rw [if_neg h24] at h ⊢
              by_cases h25 : a = 25
              · rw [if_pos h25] at h ⊢
                cases he : extract_number a input with
                | error e => rw [he] at h; simp only at h; cases h
                | ok p =>
                  obtain ⟨n, r1⟩ := p
                  rw [he] at h
                  simp only at h
                  cases h
                  rw [extract_number_append a input s _ _ he]
              · rw [if_neg h25] at h ⊢
                by_cases h26 : a = 26
                · rw [if_pos h26] at h ⊢
                  cases he : extract_number a input with
                  | error e => rw [he] at h; simp only at h; cases h
                  | ok p =>
                    obtain ⟨n, r1⟩ := p
                    rw [he] at h
                    simp only at h
                    cases h
                    rw [extract_number_append a input s _ _ he]
                · rw [if_neg h26] at h ⊢
                  by_cases h27 : a = 27
                  · rw [if_pos h27] at h ⊢
                    cases he : extract_number a input with
                    | error e => rw [he] at h; simp only at h; cases h
                    | ok p =>
                      obtain ⟨n, r1⟩ := p
                      rw [he] at h
                      simp only at h
                      cases h
                      rw [extract_number_append a input s _ _ he]
                  · rw [if_neg h27] at h ⊢
                    by_cases h30 : a ≤ 30
                    · rw [if_pos h30] at h; cases h
                    · rw [if_neg h30] at h; cases h
theorem indef_break : ∀ (fuel m : Nat) (input : List Nat) (chunks : List (List Nat))
    (rest : List Nat),
    decode_indefinite_byte_or_text fuel m input = .ok (chunks, rest) →
    ∃ r, rest = 255 :: r := by
  intro fuel
  induction fuel with
  | zero => intro m input chunks rest h; cases h
  | succ f ih =>
    intro m input chunks rest h
    cases input with
    | nil => cases h
    | cons b r =>
      simp only [decode_indefinite_byte_or_text] at h
      by_cases hb : b = 255
      · rw [if_pos hb] at h
        cases h
        exact ⟨r, by rw [hb]⟩
      · rw [if_neg hb] at h
        by_cases hm : b / 32 ≠ m
        · rw [if_pos hm] at h; cases h
        · rw [if_neg hm] at h
          cases he : extract_number (b % 32) r with
          | error e => rw [he] at h; simp only at h; cases h
          | ok p =>
            obtain ⟨len, r2⟩ := p
            rw [he] at h
            simp only at h
            cases hc : collect_vec_u8 r2 len with
            | error e => rw [hc] at h; simp only at h; cases h
            | ok q =>
              obtain ⟨bytes, r3⟩ := q
              rw [hc] at h
              simp only at h
              cases hd : decode_indefinite_byte_or_text f m r3 with
              | error e => rw [hd] at h; simp only at h; cases h
              | ok w =>
                obtain ⟨more, r4⟩ := w
                rw [hd] at h
                simp only at h
                cases h
                exact ih m r3 _ _ hd

theorem indef_append : ∀ (fuel fuel2 m : Nat) (input s : List Nat)
    (chunks : List (List Nat)) (rest : List Nat), fuel ≤ fuel2 →
    decode_indefinite_byte_or_text fuel m input = .ok (chunks, rest) →
    decode_indefinite_byte_or_text fuel2 m (input ++ s) = .ok (chunks, rest ++ s) := by
  intro fuel
  induction fuel with
  | zero => intro fuel2 m input s chunks rest _ h; cases h
  | succ f ih =>
    intro fuel2 m input s chunks rest hle h
    cases fuel2 with
    | zero => omega
    | succ f2 =>
      cases input with
      | nil => cases h
      | cons b r =>
        simp only [List.cons_append]
        simp only [decode_indefinite_byte_or_text] at h ⊢
        by_cases hb : b = 255
        · rw [if_pos hb] at h ⊢
          cases h
          rfl
        · rw [if_neg hb] at h ⊢
          by_cases hm : b / 32 ≠ m
          · rw [if_pos hm] at h; cases h
          · rw [if_neg hm] at h ⊢
            cases he : extract_number (b % 32) r with
            | error e => rw [he] at h; simp only at h; cases h
            | ok p =>
              obtain ⟨len, r2⟩ := p
              rw [he] at h
              simp only at h
              rw [extract_number_append _ r s _ _ he]
              simp only
              cases hc : collect_vec_u8 r2 len with
              | error e => rw [hc] at h; simp only at h; cases h
              | ok q =>
                obtain ⟨bytes, r3⟩ := q
                rw [hc] at h
                simp only at h
                rw [collect_append _ r2 s _ _ hc]
                simp only
                cases hd : decode_indefinite_byte_or_text f m r3 with
                | error e => rw [hd] at h; simp only at h; cases h
                | ok w =>
                  obtain ⟨more, r4⟩ := w
                  rw [hd] at h
                  simp only at h
                  cases h
                  rw [ih f2 m r3 s _ _ (by omega) hd]

theorem dbt_append : ∀ (fuel fuel2 m a : Nat) (input s : List Nat)
    (c : Bool × List (List Nat)) (rest : List Nat), fuel ≤ fuel2 →
    decode_byte_or_text fuel m a input = .ok (c, rest) →
    decode_byte_or_text fuel2 m a (input ++ s) = .ok (c, rest ++ s) := by
  intro fuel fuel2 m a input s c rest hle h
  cases fuel with
  | zero => cases h
  | succ f =>
    cases fuel2 with
    | zero => omega
    | succ f2 =>
      simp only [decode_byte_or_text] at h ⊢
      cases ho : extract_optional_number a input with
      | error e => rw [ho] at h; simp only at h; cases h
      | ok p =>
        obtain ⟨o, r1⟩ := p
        rw [ho] at h
        rw [extract_optional_append a input s _ _ ho]
        cases o with
        | some n =>
          simp only at h ⊢
          cases hc : collect_vec_u8 r1 n with
          | error e => rw [hc] at h; simp only at h; cases h
          | ok q =>
            obtain ⟨bytes, r2⟩ := q
            rw [hc] at h
            simp only at h
            cases h
            rw [collect_append _ r1 s _ _ hc]
        | none =>
          simp only at h ⊢
          cases hd : decode_indefinite_byte_or_text f m r1 with
          | error e => rw [hd] at h; simp only at h; cases h
          | ok w =>
            obtain ⟨chunks, r2⟩ := w
            rw [hd] at h
            simp only at h
            cases h
            rw [indef_append f f2 m r1 s _ _ (by omega) hd]
            simp only
            obtain ⟨r3, hr3⟩ := indef_break f m r1 chunks r2 hd
            subst hr3
            rfl
theorem eai_rest : ∀ (fuel : Nat) (input : List Nat) (items : ItemList)
    (rest : List Nat), extract_array_item fuel input = .ok (items, rest) →
    rest = [] ∨ ∃ r, rest = 255 :: r := by
  intro fuel
  induction fuel with
  | zero => intro input items rest h; cases h
  | succ f ih =>
    intro input items rest h
    cases input with
    | nil =>
      cases h
      exact Or.inl rfl
    | cons b r =>
      simp only [extract_array_item] at h
      by_cases hb : b = 255
      · subst hb
        rw [if_pos rfl] at h
        cases h
        exact Or.inr ⟨r, rfl⟩
      · rw [if_neg hb] at h
        cases hv : decode_value f (b :: r) with
        | error e => rw [hv] at h; simp only at h; cases h
        | ok p =>
          obtain ⟨w, r1⟩ := p
          rw [hv] at h
          simp only at h
          cases hx : extract_array_item f r1 with
          | error e => rw [hx] at h; simp only at h; cases h
          | ok q =>
            obtain ⟨items1, r2⟩ := q
            rw [hx] at h
            simp only at h
            cases h
            exact ih r1 items1 _ hx

theorem emi_rest : ∀ (fuel : Nat) (input : List Nat) (entries : PairList)
    (rest : List Nat), extract_map_item fuel input = .ok (entries, rest) →
    rest = [] ∨ ∃ r, rest = 255 :: r := by
  intro fuel
  induction fuel with
  | zero => intro input entries rest h; cases h
  | succ f ih =>
    intro input entries rest h
    cases input with
    | nil =>
      cases h
      exact Or.inl rfl
    | cons b r =>
      simp only [extract_map_item] at h
      by_cases hb : b = 255
      · subst hb
        rw [if_pos rfl] at h
        cases h
        exact Or.inr ⟨r, rfl⟩
      · rw [if_neg hb] at h
        cases hk : decode_value f (b :: r) with
        | error e => rw [hk] at h; simp only at h; cases h
        | ok p =>
          obtain ⟨k, r1⟩ := p
          rw [hk] at h
          simp only at h
          cases hv : decode_value f r1 with
          | error e => rw [hv] at h; simp only at h; cases h
          | ok q =>
            obtain ⟨w, r2⟩ := q
            rw [hv] at h
            simp only at h
            cases hx : extract_map_item f r2 with
            | error e => rw [hx] at h; simp only at h; cases h
            | ok z =>
              obtain ⟨more, r3⟩ := z
              rw [hx] at h
              simp only at h
              cases h
              exact ih r2 more _ hx
/-- Combined monotonicity-and-append property of the fueled decoder family:
a successful parse at some fuel is reproduced at any larger fuel and with
any suffix appended to the input, the suffix passing through untouched.
The two indefinite-loop helpers need their returned rest to start with the
break byte, which is the only shape their callers accept. -/
theorem decoder_append : ∀ fuel : Nat,
    (∀ fuel2 input s v rest, fuel ≤ fuel2 →
      decode_value fuel input = .ok (v, rest) →
      decode_value fuel2 (input ++ s) = .ok (v, rest ++ s)) ∧
    (∀ fuel2 a input s v rest, fuel ≤ fuel2 →
      decode_array fuel a input = .ok (v, rest) →
      decode_array fuel2 a (input ++ s) = .ok (v, rest ++ s)) ∧
    (∀ fuel2 n input s items rest, fuel ≤ fuel2 →
      decode_array_items fuel n input = .ok (items, rest) →
      decode_array_items fuel2 n (input ++ s) = .ok (items, rest ++ s)) ∧
    (∀ fuel2 a input s v rest, fuel ≤ fuel2 →
      decode_map fuel a input = .ok (v, rest) →
      decode_map fuel2 a (input ++ s) = .ok (v, rest ++ s)) ∧
    (∀ fuel2 n acc input s entries rest, fuel ≤ fuel2 →
      decode_map_pairs fuel n acc input = .ok (entries, rest) →
      decode_map_pairs fuel2 n acc (input ++ s) = .ok (entries, rest ++ s)) ∧
    (∀ fuel2 input s items rest, fuel ≤ fuel2 →
      extract_array_item fuel input = .ok (items, 255 :: rest) →
      extract_array_item fuel2 (input ++ s) = .ok (items, 255 :: (rest ++ s))) ∧
    (∀ fuel2 input s entries rest, fuel ≤ fuel2 →
      extract_map_item fuel input = .ok (entries, 255 :: rest) →
      extract_map_item fuel2 (input ++ s) = .ok (entries, 255 :: (rest ++ s))) := by
  intro fuel
  induction fuel with
  | zero =>
    refine ⟨?_, ?_, ?_, ?_, ?_, ?_, ?_⟩ <;>
      · intros
        rename_i h
        cases h
  | succ g ih =>
    obtain ⟨ihv, iha, ihai, ihm, ihmp, ihx, ihy⟩ := ih
    refine ⟨?_, ?_, ?_, ?_, ?_, ?_, ?_⟩
    · -- decode_value
      intro fuel2 input s v rest hle h
      cases fuel2 with
      | zero => omega
      | succ g2 =>
        cases input with
        | nil => cases h
        | cons b r =>
          simp only [decode_value, List.cons_append] at h ⊢
          by_cases h0 : b / 32 = 0
          · rw [if_pos h0] at h ⊢
            cases he : extract_number (b % 32) r with
            | error e => rw [he] at h; simp only at h; cases h
            | ok p =>
              obtain ⟨n, r1⟩ := p
              rw [he] at h
              simp only at h
              cases h
              rw [extract_number_append _ r s _ _ he]
          · rw [if_neg h0] at h ⊢
            by_cases h1 : b / 32 = 1
            · rw [if_pos h1] at h ⊢
              cases he : extract_number (b % 32) r with
              | error e => rw [he] at h; simp only at h; cases h
              | ok p =>
                obtain ⟨n, r1⟩ := p
                rw [he] at h
                simp only at h
                cases h
                rw [extract_number_append _ r s _ _ he]
            · rw [if_neg h1] at h ⊢
              by_cases h2m : b / 32 = 2
              · rw [if_pos h2m] at h ⊢
                cases hc : decode_byte_or_text g 2 (b % 32) r with
                | error e => rw [hc] at h; simp only at h; cases h
                | ok p =>
                  obtain ⟨c, r1⟩ := p
                  rw [hc] at h
                  simp only at h
                  cases h
                  rw [dbt_append g g2 2 (b % 32) r s _ _ (by omega) hc]
              · rw [if_neg h2m] at h ⊢
                by_cases h3m : b / 32 = 3
                · rw [if_pos h3m] at h ⊢
                  cases hc : decode_byte_or_text g 3 (b % 32) r with
                  | error e => rw [hc] at h; simp only at h; cases h
                  | ok p =>
                    obtain ⟨c, r1⟩ := p
                    rw [hc] at h
                    simp only at h
                    rw [dbt_append g g2 3 (b % 32) r s _ _ (by omega) hc]
                    simp only
                    by_cases hu : c.2.all validUtf8
                    · rw [if_pos hu] at h ⊢
                      cases h
                      rfl
                    · rw [if_neg hu] at h
                      cases h
                · rw [if_neg h3m] at h ⊢
                  by_cases h4m : b / 32 = 4
                  · rw [if_pos h4m] at h ⊢
                    exact iha g2 (b % 32) r s v rest (by omega) h
                  · rw [if_neg h4m] at h ⊢
                    by_cases h5m : b / 32 = 5
                    · rw [if_pos h5m] at h ⊢
                      exact ihm g2 (b % 32) r s v rest (by omega) h
                    · rw [if_neg h5m] at h ⊢
                      by_cases h6m : b / 32 = 6
                      · rw [if_pos h6m] at h ⊢
                        cases he : extract_number (b % 32) r with
                        | error e => rw [he] at h; simp only at h; cases h
                        | ok p =>
                          obtain ⟨n, r1⟩ := p
                          rw [he] at h
                          simp only at h
                          rw [extract_number_append _ r s _ _ he]
                          simp only
                          cases hv : decode_value g r1 with
                          | error e => rw [hv] at h; simp only at h; cases h
                          | ok q =>
                            obtain ⟨w, r2⟩ := q
                            rw [hv] at h
                            simp only at h
                            cases h
                            rw [ihv g2 r1 s _ _ (by omega) hv]
                      · rw [if_neg h6m] at h ⊢
                        exact dsf_append (b % 32) r s v rest h
    · -- decode_array
      intro fuel2 a input s v rest hle h
      cases fuel2 with
      | zero => omega
      | succ g2 =>
        simp only [decode_array] at h ⊢
        cases ho : extract_optional_number a input with
        | error e => rw [ho] at h; simp only at h; cases h
        | ok p =>
          obtain ⟨o, r⟩ := p
          rw [ho] at h
          rw [extract_optional_append a input s _ _ ho]
          cases o with
          | some n =>
            simp only at h ⊢
            cases hi : decode_array_items g n r with
            | error e => rw [hi] at h; simp only at h; cases h
            | ok q =>
              obtain ⟨items, r2⟩ := q
              rw [hi] at h
              simp only at h
              cases h
              rw [ihai g2 n r s _ _ (by omega) hi]
          | none =>
            simp only at h ⊢
            cases hx : extract_array_item g r with
            | error e => rw [hx] at h; simp only at h; cases h
            | ok q =>
              obtain ⟨items, r2⟩ := q
              rcases eai_rest g r items r2 hx with hnil | ⟨r3, h255⟩
              · subst hnil
                rw [hx] at h
                simp only at h
                cases h
              · subst h255
                rw [hx] at h
                simp only at h
                cases h
                rw [ihx g2 r s _ _ (by omega) hx]
    · -- decode_array_items
      intro fuel2 n input s items rest hle h
      cases fuel2 with
      | zero => omega
      | succ g2 =>
        cases n with
        | zero =>
          cases h
          rfl
        | succ n =>
          simp only [decode_array_items] at h ⊢
          cases hv : decode_value g input with
          | error e => rw [hv] at h; simp only at h; cases h
          | ok p =>
            obtain ⟨w, r⟩ := p
            rw [hv] at h
            simp only at h
            rw [ihv g2 input s _ _ (by omega) hv]
            simp only
            cases hi : decode_array_items g n r with
            | error e => rw [hi] at h; simp only at h; cases h
            | ok q =>
              obtain ⟨items1, r2⟩ := q
              rw [hi] at h
              simp only at h
              cases h
              rw [ihai g2 n r s _ _ (by omega) hi]
    · -- decode_map
      intro fuel2 a input s v rest hle h
      cases fuel2 with
      | zero => omega
      | succ g2 =>
        simp only [decode_map] at h ⊢
        cases ho : extract_optional_number a input with
        | error e => rw [ho] at h; simp only at h; cases h
        | ok p =>
          obtain ⟨o, r⟩ := p
          rw [ho] at h
          rw [extract_optional_append a input s _ _ ho]
          cases o with
          | some n =>
            simp only at h ⊢
            cases hi : decode_map_pairs g n .nil r with
            | error e => rw [hi] at h; simp only at h; cases h
            | ok q =>
              obtain ⟨entries, r2⟩ := q
              rw [hi] at h
              simp only at h
              cases h
              rw [ihmp g2 n .nil r s _ _ (by omega) hi]
          | none =>
            simp only at h ⊢
            cases hx : extract_map_item g r with
            | error e => rw [hx] at h; simp only at h; cases h
            | ok q =>
              obtain ⟨entries, r2⟩ := q
              rcases emi_rest g r entries r2 hx with hnil | ⟨r3, h255⟩
              · subst hnil
                rw [hx] at h
                simp only at h
                cases h
              · subst h255
                rw [hx] at h
                simp only at h
                cases h
                rw [ihy g2 r s _ _ (by omega) hx]
    · -- decode_map_pairs
      intro fuel2 n acc input s entries rest hle h
      cases fuel2 with
      | zero => omega
      | succ g2 =>
        cases n with
        | zero =>
          cases h
          rfl
        | succ n =>
          simp only [decode_map_pairs] at h ⊢
          cases hk : decode_value g input with
          | error e => rw [hk] at h; simp only at h; cases h
          | ok p =>
            obtain ⟨k, r⟩ := p
            rw [hk] at h
            simp only at h
            rw [ihv g2 input s _ _ (by omega) hk]
            simp only
            cases hv : decode_value g r with
            | error e => rw [hv] at h; simp only at h; cases h
            | ok q =>
              obtain ⟨w, r2⟩ := q
              rw [hv] at h
              simp only at h
              rw [ihv g2 r s _ _ (by omega) hv]
              simp only
              by_cases hcol : hasKeyCollision acc k
              · rw [if_pos hcol] at h
                cases h
              · rw [if_neg hcol] at h ⊢
                exact ihmp g2 n _ r2 s _ _ (by omega) h
    · -- extract_array_item
      intro fuel2 input s items rest hle h
      cases fuel2 with
      | zero => omega
      | succ g2 =>
        cases input with
        | nil => cases h
        | cons b r =>
          simp only [extract_array_item, List.cons_append] at h ⊢
          by_cases hb : b = 255
          · subst hb
            rw [if_pos rfl] at h
            cases h
            rfl
          · rw [if_neg hb] at h ⊢
            cases hv : decode_value g (b :: r) with
            | error e => rw [hv] at h; simp only at h; cases h
            | ok p =>
              obtain ⟨w, r1⟩ := p
              rw [hv] at h
              simp only at h
              have hv2 := ihv g2 (b :: r) s _ _ (by omega) hv
              simp only [List.cons_append] at hv2
              rw [hv2]
              simp only
              cases hx : extract_array_item g r1 with
              | error e => rw [hx] at h; simp only at h; cases h
              | ok q =>
                obtain ⟨items1, r2⟩ := q
                rw [hx] at h
                simp only at h
                cases h
                rw [ihx g2 r1 s _ _ (by omega) hx]
    · -- extract_map_item
      intro fuel2 input s entries rest hle h
      cases fuel2 with
      | zero => omega
      | succ g2 =>
        cases input with
        | nil => cases h
        | cons b r =>
          simp only [extract_map_item, List.cons_append] at h ⊢
          by_cases hb : b = 255
          · subst hb
            rw [if_pos rfl] at h
            cases h
            rfl
          · rw [if_neg hb] at h ⊢
            cases hk : decode_value g (b :: r) with
            | error e => rw [hk] at h; simp only at h; cases h
            | ok p =>
              obtain ⟨k, r1⟩ := p
              rw [hk] at h
              simp only at h
              have hk2 := ihv g2 (b :: r) s _ _ (by omega) hk
              simp only [List.cons_append] at hk2
              rw [hk2]
              simp only
              cases hv : decode_value g r1 with
              | error e => rw [hv] at h; simp only at h; cases h
              | ok q =>
                obtain ⟨w, r2⟩ := q
                rw [hv] at h
                simp only at h
                rw [ihv g2 r1 s _ _ (by omega) hv]
                simp only
                cases hx : extract_map_item g r2 with
                | error e => rw [hx] at h; simp only at h; cases h
                | ok z =>
                  obtain ⟨more, r3⟩ := z
                  rw [hx] at h
                  simp only at h
                  cases h
                  rw [ihy g2 r2 s _ _ (by omega) hx]
/-- C1: the byte-level round trip `encode (decode b) = b` fails for
non-minimally encoded integers: `0x18 0x00` (24-bit-header zero) decodes to
`Unsigned 0`, which re-encodes to the minimal single byte `0x00`. -/
theorem C1_cx_nonminimal_int :
    DataItem.decode [0x18, 0x00] = .ok (.unsigned 0) ∧
    DataItem.encode (.unsigned 0) = [0x00] ∧
    ([0x00] : List Nat) ≠ [0x18, 0x00] := by decide

/-- C1 (amended): the byte round trip does hold on the encoder's image —
the bytes produced by `encode` decode back to a value that re-encodes to
exactly the same bytes. -/
theorem C1_image_round_trip (v : DataItem) (hwf : WFValue v = true) :
    ∃ w, DataItem.decode (DataItem.encode v) = .ok w ∧
      DataItem.encode w = DataItem.encode v :=
  ⟨v, decode_encode v hwf, rfl⟩

theorem C1_image_round_trip_witness :
    WFValue (.array false (.cons (.unsigned 10) .nil)) = true ∧
    ∃ w, DataItem.decode (DataItem.encode (.array false (.cons (.unsigned 10) .nil)))
        = .ok w ∧
      DataItem.encode w = DataItem.encode (.array false (.cons (.unsigned 10) .nil)) :=
  ⟨by decide, C1_image_round_trip (.array false (.cons (.unsigned 10) .nil)) (by decide)⟩

/-- C2: a *definite* byte item built from several chunks (legal through
`ByteContent::add_bytes`) is flattened on the wire, so it decodes to the
single-chunk value and the value round trip fails even though every
content is definite. -/
theorem C2_cx_multichunk_definite :
    DataItem.decode (DataItem.encode (.byte false [[1], [2]])) =
      .ok (.byte false [[1, 2]]) ∧
    DataItem.byte false [[1, 2]] ≠ .byte false [[1], [2]] := by decide

/-- C2 (amended): `decode (encode v) = v` for every well-formed value —
numeric fields in range, definite byte/text content a single chunk, text
chunks valid UTF-8, map keys satisfying the `IndexMap` uniqueness
invariant — with no definiteness restriction: indefinite content
round-trips too. -/
theorem C2_wf_round_trip (v : DataItem) (hwf : WFValue v = true) :
    DataItem.decode (DataItem.encode v) = .ok v :=
  decode_encode v hwf

theorem C2_wf_round_trip_witness :
    WFValue (.byte true [[1], [2]]) = true ∧
    DataItem.decode (DataItem.encode (.byte true [[1], [2]])) =
      .ok (.byte true [[1], [2]]) :=
  ⟨by decide, C2_wf_round_trip (.byte true [[1], [2]]) (by decide)⟩

/-- C3: the spec requires every duplicate map key to be rejected with
`NotWellFormed`, and the definite-length loop does so, but
`extract_map_item` (indefinite maps) tests membership in a map created
empty two lines above and merges results with `IndexMap::extend`, so an
indefinite-length map with a repeated key decodes successfully and the
earlier value is silently overwritten. -/
theorem C3_indefinite_dup_key_overwritten :
    DataItem.decode [0xbf, 0x00, 0x01, 0x00, 0x02, 0xff] =
      .ok (.map true (.cons (.unsigned 0) (.unsigned 2) .nil)) := by decide

/-- C4: NaN does round-trip bit-for-bit through half precision, yet the
encoder's cascade tests `f64::from(f16) == x` with IEEE `==`, which is
false for NaN, so `Floating(NaN)` falls through to the 9-byte double form
— refuting the claim that NaN needs no special-casing and encodes in 3
bytes. -/
theorem C4_cx_nan_double :
    DataItem.encode (.floating 0x7FF8000000000000) =
      [0xfb, 0x7f, 0xf8, 0, 0, 0, 0, 0, 0] ∧
    f16_to_f64 (f64_to_f16 0x7FF8000000000000) = 0x7FF8000000000000 := by decide

/-- C4 (amended): for every non-NaN `f64` bit pattern the cascade does
emit the smallest width whose round trip is bit-exact (half, then single,
then double), because for non-NaN values the IEEE `==` test coincides
with bit-exactness; NaN always takes the 9-byte double form. -/
theorem C4_float_cascade_non_nan (x : Nat) (hn : isNan64 x = false) :
    DataItem.encode (.floating x) =
      if f16_to_f64 (f64_to_f16 x) = x then (7 * 32 + 25) :: beBytes 2 (f64_to_f16 x)
      else if f32_to_f64 (f64_to_f32 x) = x then (7 * 32 + 26) :: beBytes 4 (f64_to_f32 x)
      else (7 * 32 + 27) :: beBytes 8 x := by
  show encode_f64_number 7 x = _
  simp only [encode_f64_number]
  by_cases h16 : f16_to_f64 (f64_to_f16 x) = x
  · rw [if_pos ((ieee_rt16_iff x hn).mpr h16), if_pos h16]
  · rw [if_neg (fun hE => h16 ((ieee_rt16_iff x hn).mp hE)), if_neg h16]
    by_cases h32 : f32_to_f64 (f64_to_f32 x) = x
    · rw [if_pos ((ieee_rt32_iff x hn).mpr h32), if_pos h32]
    · rw [if_neg (fun hE => h32 ((ieee_rt32_iff x hn).mp hE)), if_neg h32]

theorem C4_float_cascade_non_nan_witness :
    isNan64 0x4093480000000000 = false ∧
    DataItem.encode (.floating 0x4093480000000000) =
      if f16_to_f64 (f64_to_f16 0x4093480000000000) = 0x4093480000000000 then
        (7 * 32 + 25) :: beBytes 2 (f64_to_f16 0x4093480000000000)
      else if f32_to_f64 (f64_to_f32 0x4093480000000000) = 0x4093480000000000 then
        (7 * 32 + 26) :: beBytes 4 (f64_to_f32 0x4093480000000000)
      else (7 * 32 + 27) :: beBytes 8 0x4093480000000000 :=
  ⟨by decide, C4_float_cascade_non_nan 0x4093480000000000 (by decide)⟩

/-- C5: `as_signed` computes `num + 1` in `u64` before widening to `i128`,
so at `num = u64::MAX` the addition wraps to `0` (release profile;
overflow panic under debug assertions) and the result is `Some(0)` instead
of the exact `-(1 + num) = -2^64`; `as_number`'s `Signed` arm is the same
expression. -/
theorem C5_as_signed_wraps :
    DataItem.as_signed (.signed (2 ^ 64 - 1)) = some 0 ∧
    DataItem.as_number (.signed (2 ^ 64 - 1)) = some 0 ∧
    (-(1 + ((2 : Int) ^ 64 - 1)) : Int) ≠ 0 := by decide

/-- C6: `is_deterministic`'s `Map` arm checks only the map's own
indefiniteness and adjacent-key order — it never recurses into the keys or
values — so a definite map holding an indefinite array is reported
deterministic even though it contains indefinite content. -/
theorem C6_is_deterministic_shallow :
    DataItem.is_deterministic
      (.map false (.cons (.unsigned 0) (.array true .nil) .nil)) .core = true ∧
    allDefinite (.map false (.cons (.unsigned 0) (.array true .nil) .nil)) = false := by
  decide

/-- C9: a successful decode is unaffected by appending arbitrary trailing
bytes: `DataItem::decode` reads one item from the front of the buffer and
ignores whatever follows it. -/
theorem C9_decode_prefix (b s : List Nat) (v : DataItem)
    (h : DataItem.decode b = .ok v) : DataItem.decode (b ++ s) = .ok v := by
  unfold DataItem.decode at h ⊢
  cases hd : decode_value (5 * b.length + 1) b with
  | error e => rw [hd] at h; simp only at h; cases h
  | ok p =>
    obtain ⟨w, rest⟩ := p
    rw [hd] at h
    simp only at h
    cases h
    have h2 := (decoder_append (5 * b.length + 1)).1 (5 * (b ++ s).length + 1) b s _ _
      (by simp only [List.length_append]; omega) hd
    rw [h2]

theorem C9_decode_prefix_witness :
    DataItem.decode [0x01] = .ok (.unsigned 1) ∧
    DataItem.decode ([0x01] ++ [0xff, 0xff]) = .ok (.unsigned 1) :=
  ⟨by decide, C9_decode_prefix [0x01] [0xff, 0xff] (.unsigned 1) (by decide)⟩
/-- C8: the spec says UTF-8 validity of an indefinite text item is judged
on the flattened concatenation of the chunks, but the code
(`TryFrom<ByteContent> for TextContent`) runs `String::from_utf8` on each
chunk separately, so chunks that split a multi-byte character are rejected
even though their concatenation is valid UTF-8 (here `c3` + `a9`,
U+00E9). -/
theorem C8_cx_split_utf8 :
    DataItem.decode [0x7f, 0x61, 0xc3, 0x61, 0xa9, 0xff] = .error .fromUtf8 ∧
    validUtf8 ([0xc3] ++ [0xa9]) = true ∧
    validUtf8 [0xc3] = false := by decide

/-- C8 (amended): decoding an indefinite-length text item validates UTF-8
chunk by chunk: the chunk train decodes to `Text` exactly when every
chunk alone is valid UTF-8, and otherwise fails with `Error::FromUtf8`
(distinct from the CBOR-structural errors). -/
theorem C8_per_chunk_utf8 (chunks : List (List Nat))
    (hlen : ∀ c ∈ chunks, c.length < 2 ^ 64) :
    DataItem.decode
        (127 :: ((chunks.flatMap fun c => encode_u64_number 3 c.length ++ c) ++ [255])) =
      if chunks.all validUtf8 then .ok (.text true chunks) else .error .fromUtf8 := by
  unfold DataItem.decode
  have hT := chunk_train_length 3 chunks
  have hrt := rt_chunks 3 chunks
  generalize hG : (chunks.flatMap fun c => encode_u64_number 3 c.length ++ c) = T
  rw [hG] at hT hrt
  rw [show (127 :: (T ++ [255])).length = T.length + 2 by simp]
  rw [show 5 * (T.length + 2) + 1 = (5 * T.length + 10) + 1 by ring]
  simp only [decode_value]
  norm_num
  rw [show 5 * T.length + 10 = (5 * T.length + 9) + 1 by ring]
  simp only [decode_byte_or_text]
  rw [show extract_optional_number 31 (T ++ [255]) = .ok (none, T ++ [255]) from rfl]
  dsimp only
  rw [hrt (5 * T.length + 9) [] hlen (by omega)]
  dsimp only [List.drop]
  by_cases hu : ∀ x ∈ chunks, validUtf8 x = true
  · rw [if_pos hu, if_pos hu]
  · rw [if_neg hu, if_neg hu]

theorem C8_per_chunk_utf8_witness :
    (∀ c ∈ ([[0xc3], [0xa9]] : List (List Nat)), c.length < 2 ^ 64) ∧
    DataItem.decode
        (127 :: ((([[0xc3], [0xa9]] : List (List Nat)).flatMap
          fun c => encode_u64_number 3 c.length ++ c) ++ [255])) =
      if ([[0xc3], [0xa9]] : List (List Nat)).all validUtf8 then
        .ok (.text true [[0xc3], [0xa9]])
      else .error .fromUtf8 :=
  ⟨by decide, C8_per_chunk_utf8 [[0xc3], [0xa9]] (by decide)⟩
theorem lexCmp_swap : ∀ a b : List Nat, lexCmp a b = .gt ↔ lexCmp b a = .lt := by
  intro a
  induction a with
  | nil => intro b; cases b <;> simp [lexCmp]
  | cons x as ih =>
    intro b
    cases b with
    | nil => simp [lexCmp]
    | cons y bs =>
      simp only [lexCmp]
      rcases Nat.lt_trichotomy x y with h | h | h
      · rw [if_pos h, if_neg (by omega), if_pos h]
        simp
      · subst h
        rw [if_neg (by omega), if_neg (by omega), if_neg (by omega), if_neg (by omega)]
        exact ih bs
      · rw [if_neg (by omega), if_pos h, if_pos h]
        simp

theorem lexCmp_le_trans : ∀ a b c : List Nat,
    lexCmp a b ≠ .gt → lexCmp b c ≠ .gt → lexCmp a c ≠ .gt := by
  intro a
  induction a with
  | nil =>
    intro b c _ _
    cases c <;> simp [lexCmp]
  | cons x as ih =>
    intro b c hab hbc
    cases b with
    | nil => exact absurd rfl hab
    | cons y bs =>
      cases c with
      | nil => exact absurd rfl hbc
      | cons z cs =>
        simp only [lexCmp] at hab hbc ⊢
        rcases Nat.lt_trichotomy x y with h1 | h1 | h1
        · have hyz : ¬ z < y := by
            intro hzy
            rw [if_neg (by omega), if_pos hzy] at hbc
            exact hbc rfl
          rw [if_pos (by omega)]
          simp
        · subst h1
          rw [if_neg (by omega), if_neg (by omega)] at hab
          rcases Nat.lt_trichotomy x z with h2 | h2 | h2
          · rw [if_pos h2]
            simp
          · subst h2
            rw [if_neg (by omega), if_neg (by omega)] at hbc ⊢
            exact ih bs cs hab hbc
          · rw [if_neg (by omega), if_pos h2] at hbc
            exact absurd rfl hbc
        · rw [if_neg (by omega), if_pos h1] at hab
          exact absurd rfl hab

/-- Unfolds Boolean disequality with `gt` on `Ordering`. -/
theorem ordering_bne_gt {o : Ordering} : (o != Ordering.gt) = true ↔ o ≠ Ordering.gt := by
  cases o <;> decide

/-- `keyLe` (the adjacency check of `is_deterministic`) agrees with the
non-strictness of `keyCmp` (the sort comparator of `deterministic`). -/
theorem keyLe_eq_keyCmp (mode : DeterministicMode) (a b : List Nat) :
    keyLe mode a b = (keyCmp mode a b != .gt) := by
  cases mode with
  | core => rfl
  | lengthFirst =>
    simp only [keyLe, keyCmp]
    cases h : compare a.length b.length <;> rfl

theorem keyLe_total (mode : DeterministicMode) (a b : List Nat)
    (h : keyLe mode a b = false) : keyLe mode b a = true := by
  cases mode with
  | core =>
    simp only [keyLe] at h ⊢
    cases hg : lexCmp a b with
    | lt => rw [hg] at h; cases h
    | eq => rw [hg] at h; cases h
    | gt =>
      rw [(lexCmp_swap a b).mp hg]
      rfl
  | lengthFirst =>
    simp only [keyLe] at h ⊢
    rcases Nat.lt_trichotomy a.length b.length with h1 | h1 | h1
    · rw [Nat.compare_eq_lt.mpr h1] at h
      cases h
    · rw [Nat.compare_eq_eq.mpr h1] at h
      rw [Nat.compare_eq_eq.mpr h1.symm]
      cases hg : lexCmp a b with
      | lt => rw [hg] at h; cases h
      | eq => rw [hg] at h; cases h
      | gt =>
        rw [(lexCmp_swap a b).mp hg]
        rfl
    · rw [Nat.compare_eq_lt.mpr h1]

theorem keyLe_trans (mode : DeterministicMode) (a b c : List Nat)
    (hab : keyLe mode a b = true) (hbc : keyLe mode b c = true) :
    keyLe mode a c = true := by
  cases mode with
  | core =>
    simp only [keyLe] at hab hbc ⊢
    rw [ordering_bne_gt] at hab hbc ⊢
    exact lexCmp_le_trans a b c hab hbc
  | lengthFirst =>
    simp only [keyLe] at hab hbc ⊢
    rcases Nat.lt_trichotomy a.length b.length with h1 | h1 | h1 <;>
      rcases Nat.lt_trichotomy b.length c.length with h2 | h2 | h2
    · rw [Nat.compare_eq_lt.mpr (by omega)]
    · rw [Nat.compare_eq_lt.mpr (by omega)]
    · rw [Nat.compare_eq_gt.mpr h2] at hbc
      cases hbc
    · rw [Nat.compare_eq_lt.mpr (by omega)]
    · rw [Nat.compare_eq_eq.mpr h1] at hab
      rw [Nat.compare_eq_eq.mpr h2] at hbc
      rw [Nat.compare_eq_eq.mpr (by omega)]
      rw [ordering_bne_gt] at hab hbc ⊢
      exact lexCmp_le_trans a b c hab hbc
    · rw [Nat.compare_eq_gt.mpr h2] at hbc
      cases hbc
    · rw [Nat.compare_eq_gt.mpr h1] at hab
      cases hab
    · rw [Nat.compare_eq_gt.mpr h1] at hab
      cases hab
    · rw [Nat.compare_eq_gt.mpr h1] at hab
      cases hab
/-- Inserting into a chain-le-sorted list keeps it chain-le-sorted, for a
total comparator. -/
theorem insertLe_chain {α : Type} (le : α → α → Bool)
    (total : ∀ a b, le a b = false → le b a = true) (x : α) :
    ∀ l : List α, List.Chain' (fun a b => le a b = true) l →
      List.Chain' (fun a b => le a b = true) (insertLe le x l) := by
  intro l
  induction l with
  | nil =>
    intro _
    simp [insertLe]
  | cons y t ih =>
    intro h
    rw [List.chain'_cons'] at h
    obtain ⟨hhead, htail⟩ := h
    simp only [insertLe]
    by_cases hxy : le x y
    · rw [if_pos hxy]
      exact List.Chain'.cons hxy (List.chain'_cons'.mpr ⟨hhead, htail⟩)
    · rw [if_neg hxy]
      rw [List.chain'_cons']
      refine ⟨?_, ih htail⟩
      intro z hz
      cases t with
      | nil =>
        simp [insertLe] at hz
        subst hz
        exact total x y (by simpa using hxy)
      | cons w t2 =>
        simp only [insertLe] at hz
        by_cases hxw : le x w
        · rw [if_pos hxw] at hz
          simp at hz
          subst hz
          exact total x y (by simpa using hxy)
        · rw [if_neg hxw] at hz
          simp at hz
          subst hz
          exact hhead w rfl

/-- The stable insertion sort output is chain-le-sorted, for a total
comparator. -/
theorem sortLe_chain {α : Type} (le : α → α → Bool)
    (total : ∀ a b, le a b = false → le b a = true) :
    ∀ l : List α, List.Chain' (fun a b => le a b = true) (sortLe le l) := by
  intro l
  induction l with
  | nil => simp [sortLe]
  | cons x t ih =>
    simp only [sortLe]
    exact insertLe_chain le total x (sortLe le t) ih
/-- One `extend` insertion step either leaves the stored keys unchanged
(value update) or appends the new key. -/
theorem extendStep_keys (acc : List (DataItem × DataItem)) (k v : DataItem) :
    (extendStep acc k v).map Prod.fst = acc.map Prod.fst ∨
      (extendStep acc k v).map Prod.fst = acc.map Prod.fst ++ [k] := by
  simp only [extendStep]
  by_cases hc : acc.any fun kv => structBeq k kv.1 && !containsNan k
  · rw [if_pos hc]
    left
    rw [List.map_map]
    apply List.map_congr_left
    intro p _
    obtain ⟨k2, v2⟩ := p
    dsimp only [Function.comp]
    split <;> rfl
  · rw [if_neg hc]
    right
    simp

/-- The keys stored by `IndexMap::extend` form a sublist of the keys seen
(stored keys first, then the new entries in order). -/
theorem extendEntries_keys_sublist :
    ∀ (news acc : List (DataItem × DataItem)),
      List.Sublist ((extendEntries acc news).map Prod.fst)
        (acc.map Prod.fst ++ news.map Prod.fst) := by
  intro news
  induction news with
  | nil =>
    intro acc
    simp [extendEntries]
  | cons kv t ih =>
    intro acc
    have hstep := ih (extendStep acc kv.1 kv.2)
    have hrec : extendEntries acc (kv :: t) = extendEntries (extendStep acc kv.1 kv.2) t := rfl
    rw [hrec]
    rcases extendStep_keys acc kv.1 kv.2 with hk | hk
    · rw [hk] at hstep
      refine hstep.trans ?_
      rw [List.map_cons]
      exact (List.sublist_cons_self kv.1 (t.map Prod.fst)).append_left (acc.map Prod.fst)
    · rw [hk] at hstep
      refine hstep.trans ?_
      rw [List.map_cons, List.append_assoc, List.singleton_append]

/-- A chain of non-descending adjacent keys passes the pairwise scan of
`is_deterministic`. -/
theorem adjacentKeysOk_of_chain (mode : DeterministicMode) :
    ∀ l : List (DataItem × DataItem),
      List.Chain' (fun p q : DataItem × DataItem =>
        keyLe mode (DataItem.encode p.1) (DataItem.encode q.1) = true) l →
      adjacentKeysOk mode l = true := by
  intro l
  induction l with
  | nil => intro _; rfl
  | cons p t ih =>
    intro h
    cases t with
    | nil => rfl
    | cons q t2 =>
      rw [List.chain'_cons] at h
      obtain ⟨hpq, htail⟩ := h
      obtain ⟨k1, v1⟩ := p
      obtain ⟨k2, v2⟩ := q
      simp only [adjacentKeysOk, Bool.and_eq_true]
      exact ⟨hpq, ih htail⟩
theorem PairList.toList_ofList (L : List (DataItem × DataItem)) :
    (PairList.ofList L).toList = L := by
  induction L with
  | nil => rfl
  | cons kv t ih =>
    obtain ⟨k, v⟩ := kv
    simp [PairList.ofList, PairList.toList, ih]

/-- The entries produced by the canonicalizer's sort-then-extend pass scan
as non-descending under the mode's adjacent-key check. -/
theorem adjacent_sorted (mode : DeterministicMode) (l : List (DataItem × DataItem)) :
    adjacentKeysOk mode (extendEntries []
      (sortLe (fun p q : DataItem × DataItem =>
        keyCmp mode (DataItem.encode p.1) (DataItem.encode q.1) != .gt) l)) = true := by
  have hfe : (fun p q : DataItem × DataItem =>
      keyCmp mode (DataItem.encode p.1) (DataItem.encode q.1) != .gt)
      = fun p q : DataItem × DataItem =>
        keyLe mode (DataItem.encode p.1) (DataItem.encode q.1) := by
    funext p q
    rw [keyLe_eq_keyCmp]
  rw [hfe]
  have total : ∀ p q : DataItem × DataItem,
      keyLe mode (DataItem.encode p.1) (DataItem.encode q.1) = false →
      keyLe mode (DataItem.encode q.1) (DataItem.encode p.1) = true :=
    fun p q h => keyLe_total mode _ _ h
  have hchain := sortLe_chain
    (fun p q : DataItem × DataItem => keyLe mode (DataItem.encode p.1) (DataItem.encode q.1))
    total l
  haveI : IsTrans (DataItem × DataItem)
      (fun p q => keyLe mode (DataItem.encode p.1) (DataItem.encode q.1) = true) :=
    ⟨fun a b c hab hbc => keyLe_trans mode _ _ _ hab hbc⟩
  have hpw := List.chain'_iff_pairwise.mp hchain
  have hkeys : ((sortLe (fun p q : DataItem × DataItem =>
      keyLe mode (DataItem.encode p.1) (DataItem.encode q.1)) l).map Prod.fst).Pairwise
      (fun k k2 : DataItem => keyLe mode (DataItem.encode k) (DataItem.encode k2) = true) :=
    List.pairwise_map.mpr hpw
  have hsub := extendEntries_keys_sublist
    (sortLe (fun p q : DataItem × DataItem =>
      keyLe mode (DataItem.encode p.1) (DataItem.encode q.1)) l) []
  simp only [List.map_nil, List.nil_append] at hsub
  have hkeys2 := hkeys.sublist hsub
  have hpw2 : (extendEntries [] (sortLe (fun p q : DataItem × DataItem =>
      keyLe mode (DataItem.encode p.1) (DataItem.encode q.1)) l)).Pairwise
      (fun p q : DataItem × DataItem =>
        keyLe mode (DataItem.encode p.1) (DataItem.encode q.1) = true) :=
    List.pairwise_map.mp hkeys2
  exact adjacentKeysOk_of_chain mode _ hpw2.chain'
mutual

/-- Canonicalized values pass the (shallow) determinism check: maps come
out definite with sorted keys, arrays definite with sound elements,
byte/text collapsed to definite single chunks. -/
theorem det_sound : ∀ (v : DataItem) (mode : DeterministicMode),
    DataItem.is_deterministic (DataItem.deterministic v mode) mode = true
  | .map _ entries, mode => by
    simp only [DataItem.deterministic, DataItem.is_deterministic,
      Bool.false_eq_true, if_false]
    rw [PairList.toList_ofList]
    exact adjacent_sorted mode _
  | .array _ items, mode => by
    simp only [DataItem.deterministic, DataItem.is_deterministic,
      Bool.false_eq_true, if_false]
    exact det_sound_items items mode
  | .tag n content, mode => by
    simp only [DataItem.deterministic, DataItem.is_deterministic]
    exact det_sound content mode
  | .byte indef chunks, mode => by
    cases indef with
    | true => rfl
    | false => rfl
  | .text indef chunks, mode => by
    cases indef with
    | true => rfl
    | false => rfl
  | .unsigned _, _ => rfl
  | .signed _, _ => rfl
  | .boolean _, _ => rfl
  | .null, _ => rfl
  | .undefined, _ => rfl
  | .floating _, _ => rfl
  | .genericSimple _, _ => rfl

/-- Elementwise soundness for canonicalized array contents. -/
theorem det_sound_items : ∀ (l : ItemList) (mode : DeterministicMode),
    isDeterministicItems (deterministicItems l mode) mode = true
  | .nil, _ => rfl
  | .cons h t, mode => by
    simp only [deterministicItems, isDeterministicItems, Bool.and_eq_true]
    exact ⟨det_sound h mode, det_sound_items t mode⟩

end

/-- C7: canonicalization soundness — for every value and both
deterministic modes, `is_deterministic (deterministic v m) m` returns
`true`: the canonicalizer's output always passes the library's own
determinism check. -/
theorem C7_deterministic_sound (v : DataItem) (mode : DeterministicMode) :
    DataItem.is_deterministic (DataItem.deterministic v mode) mode = true :=
  det_sound v mode
mutual

/-- A value containing a NaN float anywhere compares `PartialEq`-unequal
to every value: IEEE `==` is false on NaN, and every `beqItem` path that
could succeed passes through the contained NaN's comparison. -/
theorem nan_beq_false : ∀ (x : DataItem), containsNan x = true →
    ∀ y, beqItem x y = false
  | .floating bits, h, y => by
    have h2 : isNan64 bits = true := h
    cases y <;> simp [beqItem, ieeeEq64, h2]
  | .array i l, h, y => by
    have h2 : containsNanItems l = true := h
    cases y <;> first
      | (simp only [beqItem]
         rw [nan_beqItems_false l h2 _]
         simp)
      | simp [beqItem]
  | .map i l, h, y => by
    have h2 : containsNanPairs l = true := h
    cases y <;> first
      | (simp only [beqItem]
         rw [nan_beqEntries_false l h2 _]
         simp)
      | simp [beqItem]
  | .tag n c, h, y => by
    have h2 : containsNan c = true := h
    cases y <;> first
      | (simp only [beqItem]
         rw [nan_beq_false c h2 _]
         simp)
      | simp [beqItem]
termination_by x _ _ => (sizeOf x, 0)
decreasing_by all_goals simp_wf
              all_goals apply Prod.Lex.left
              all_goals omega

/-- Itemwise version of `nan_beq_false`. -/
theorem nan_beqItems_false : ∀ (l : ItemList), containsNanItems l = true →
    ∀ m, beqItemsList l m = false
  | .nil, hn, _ => by cases hn
  | .cons h t, hn, m => by
    rcases (by simpa [containsNanItems] using hn :
        containsNan h = true ∨ containsNanItems t = true) with hh | ht
    · cases m with
      | nil => simp [beqItemsList]
      | cons h2 t2 =>
        simp only [beqItemsList]
        rw [nan_beq_false h hh h2]
        rfl
    · cases m with
      | nil => simp [beqItemsList]
      | cons h2 t2 =>
        simp only [beqItemsList]
        rw [nan_beqItems_false t ht t2]
        simp
termination_by l _ _ => (sizeOf l, 0)
decreasing_by all_goals simp_wf
              all_goals apply Prod.Lex.left
              all_goals omega

/-- Entrywise version of `nan_beq_false`: a NaN anywhere in the left map's
entries defeats the order-insensitive `IndexMap` comparison. -/
theorem nan_beqEntries_false : ∀ (l : PairList), containsNanPairs l = true →
    ∀ m, beqEntriesIn l m = false
  | .nil, hn, _ => by cases hn
  | .cons k v t, hn, m => by
    rcases (by simpa [containsNanPairs] using hn :
        (containsNan k = true ∨ containsNan v = true) ∨ containsNanPairs t = true)
      with (hk | hv) | ht
    · simp only [beqEntriesIn]
      rw [nan_lookup_false k v (Or.inl hk) m]
      rfl
    · simp only [beqEntriesIn]
      rw [nan_lookup_false k v (Or.inr hv) m]
      rfl
    · simp only [beqEntriesIn]
      rw [nan_beqEntries_false t ht m]
      simp
termination_by l _ _ => (sizeOf l, 0)
decreasing_by all_goals simp_wf
              all_goals apply Prod.Lex.left
              all_goals have ht2 := pairList_sizeOf_pos t
              all_goals omega

/-- A NaN in the key or the value makes the entry lookup of the
`IndexMap` comparison fail against every entry list. -/
theorem nan_lookup_false : ∀ (k v : DataItem),
    containsNan k = true ∨ containsNan v = true →
    ∀ (other : PairList), beqEntryLookup k v other = false
  | _, _, _, .nil => by simp [beqEntryLookup]
  | k, v, h, .cons k2 v2 t => by
    simp only [beqEntryLookup]
    rw [nan_lookup_false k v h t]
    rcases h with hk | hv
    · rw [nan_beq_false k hk k2]
      rfl
    · rw [nan_beq_false v hv v2]
      simp
termination_by k v _ other => (sizeOf k + sizeOf v + 1, sizeOf other)
decreasing_by all_goals simp_wf
              all_goals first
                | (apply Prod.Lex.right
                   omega)
                | (apply Prod.Lex.left
                   omega)

end

/-- C10: `PartialEq` on `DataItem` inherits IEEE `==` on `Floating`, so a
NaN-containing value is unequal to itself (`Eq` is not reflexive there),
and keyed map lookup (`Get<DataItem>`, via `IndexMap::get`, which requires
a `PartialEq`-equal stored key) can never succeed with a NaN-containing
key; `Hash` meanwhile hashes the plain big-endian bit pattern
(`floatHashBytes`), so the hash is well-defined on NaN. -/
theorem C10_nan_irreflexive (x : DataItem) (entries : PairList)
    (h : containsNan x = true) :
    beqItem x x = false ∧ mapGet entries x = none := by
  refine ⟨nan_beq_false x h x, ?_⟩
  induction entries using PairList.spineInductionP with
  | nil => rfl
  | cons k v t ih =>
    simp only [mapGet]
    rw [nan_beq_false x h k]
    simpa using ih

theorem C10_nan_irreflexive_witness :
    containsNan (.floating 0x7FF8000000000000) = true ∧
    (beqItem (.floating 0x7FF8000000000000) (.floating 0x7FF8000000000000) = false ∧
      mapGet (.cons (.floating 0x7FF8000000000000) (.unsigned 1) .nil)
        (.floating 0x7FF8000000000000) = none) :=
  ⟨by decide, C10_nan_irreflexive (.floating 0x7FF8000000000000)
    (.cons (.floating 0x7FF8000000000000) (.unsigned 1) .nil) (by decide)⟩
